import Mathlib

/-!
# SudokuSolver: a shallow embedding of `SudokuSolver/main.cpp`

The C++ program keeps one `CellState` per grid cell in an `unordered_map`, a
second `unordered_map` from each cell to the cells it shares a constraint
with, and a stack of reversible assignments.  The definitions below follow
the source function by function:

* `uint8_t` and `uint32_t` fields are natural numbers, arithmetic on them is
  written with an explicit `% 256` or `% 2 ^ 32`;
* `bitset<9>` is the natural number whose binary digits are the nine bits;
* an `unordered_map<Point, β>` is a function `Point → Option β` (`none` for an
  absent key); its iteration order, which the C++ standard leaves open, is a
  parameter of `solve`;
* a step whose behaviour the C++ standard leaves undefined (a write past the
  end of a vector, `top()` on an empty stack) yields no result;
* `solve` recurses on a budget (its second argument) and returns `Fault.fuel`
  when the budget is used up; `solveLog` is the same run with a log of its steps;
* `read` takes the text of the stream.
-/

namespace Sudoku

/-- A point in a sudoku grid: `struct Point` with `uint8_t row, col`. -/
structure Point where
  row : Nat
  col : Nat
deriving DecidableEq, Repr

/-- The default constructor `Point() : row(0), col(0)`. -/
instance : Inhabited Point := ⟨⟨0, 0⟩⟩

/-- A point of the 9x9 grid. -/
def Point.inGrid (p : Point) : Prop := p.row < 9 ∧ p.col < 9

instance (p : Point) : Decidable p.inGrid := by
  unfold Point.inGrid; infer_instance

/-- The 81 points of the grid, rows first, as the constructor's two loops visit them. -/
def allPoints : List Point :=
  (List.range 9).flatMap fun i => (List.range 9).map fun j => Point.mk i j

/-! ## `bitset<9>` -/

/-- The bit test `bits[i]`. -/
def Bits.test (bits i : Nat) : Bool := bits.testBit i

/-- The assignment `bits[i] = false`. -/
def Bits.reset (bits i : Nat) : Nat := bits ^^^ (bits &&& (1 <<< i))

/-- The assignment `bits[i] = true`. -/
def Bits.raise (bits i : Nat) : Nat := bits ||| (1 <<< i)

/-! ## `CellState` -/

/-- State tracking which and how many values may be assigned to a sudoku cell. -/
structure CellState where
  /-- `bitset<9> option_state`: bit `d - 1` is set when digit `d` is still possible. -/
  option_state : Nat
  /-- `uint8_t option_count`. -/
  option_count : Nat
  /-- `uint8_t value`, 0 for an empty cell. -/
  value : Nat
deriving DecidableEq, Repr

/-- The constructor `CellState() : option_state(0xFFFF), option_count(9), value(0)`;
a `bitset<9>` keeps the low nine bits of `0xFFFF`. -/
instance : Inhabited CellState := ⟨⟨0xFFFF % 2 ^ 9, 9, 0⟩⟩

namespace CellState

/-- `remove_option(value)`: the returned flag is `option_state.none()`.
The digit is in 1..9 at every call of the program. -/
def remove_option (c : CellState) (value : Nat) : Bool × CellState :=
  let c1 : CellState :=
    if Bits.test c.option_state (value - 1)
    then { c with option_count := (c.option_count + 255) % 256 } else c
  let c2 : CellState := { c1 with option_state := Bits.reset c1.option_state (value - 1) }
  (c2.option_state == 0, c2)

/-- `add_option(value)`. -/
def add_option (c : CellState) (value : Nat) : CellState :=
  let c1 : CellState :=
    if !Bits.test c.option_state (value - 1)
    then { c with option_count := (c.option_count + 1) % 256 } else c
  { c1 with option_state := Bits.raise c1.option_state (value - 1) }

/-- `has_option(value)`. -/
def has_option (c : CellState) (value : Nat) : Bool := Bits.test c.option_state (value - 1)

/-- `get_value()`. -/
def get_value (c : CellState) : Nat := c.value

/-- `set_value(_value)`. -/
def set_value (c : CellState) (v : Nat) : CellState := { c with value := v }

/-- `get_option_count()`. -/
def get_option_count (c : CellState) : Nat := c.option_count

end CellState

/-! ## `unordered_map<Point, β>` -/

/-- An `unordered_map` keyed by `Point`: `slot p` is the value stored under the
key `p`, `none` when the key is absent. -/
@[ext]
structure UMap (β : Type) where
  slot : Point → Option β

namespace UMap

/-- The map without keys. -/
def empty {β : Type} : UMap β := ⟨fun _ => none⟩

/-- `m.emplace(p, b)`: inserts only when the key is absent, so the key `p` holds
the value it had, or `b` when it had none. -/
def emplace {β : Type} (m : UMap β) (p : Point) (b : β) : UMap β :=
  let v := (m.slot p).getD b
  ⟨fun q => if q = p then some v else m.slot q⟩

/-- The map after `m[p]` has been evaluated: under an absent key `operator[]`
inserts a default-constructed value. -/
def touch {β : Type} [Inhabited β] (m : UMap β) (p : Point) : UMap β :=
  emplace m p default

/-- The value the reference `m[p]` reads. -/
def subscript {β : Type} [Inhabited β] (m : UMap β) (p : Point) : β :=
  (m.slot p).getD default

/-- A write of `b` through the reference `m[p]`. -/
def store {β : Type} (m : UMap β) (p : Point) (b : β) : UMap β :=
  ⟨fun q => if q = p then some b else m.slot q⟩

/-- `m.count(p) > 0`. -/
def contains {β : Type} (m : UMap β) (p : Point) : Bool := (m.slot p).isSome

end UMap

/-! ## `SudokuState` -/

/-- One entry of the undo stack: the cell that was set, the value, and the
points whose option for that value was removed. -/
structure SetOperation where
  forbids : List Point
  set : Point
  value : Nat
deriving DecidableEq, Repr

/-- The solver state: `struct SudokuState`. -/
structure SudokuState where
  /-- `uint8_t free_cells`: total number of unoccupied cells. -/
  free_cells : Nat
  /-- `uint32_t iterations`: total number of guesses made. -/
  iterations : Nat
  /-- `stack<SetOperation> undo_stack`, the top first. -/
  undo_stack : List SetOperation
  /-- `unordered_map<Point,CellState> cell_states`. -/
  cell_states : UMap CellState
  /-- `unordered_map<Point,vector<Point>> constraint_map`. -/
  constraint_map : UMap (List Point)

/-- The statement `ps[ix++] = q` on the pair of the vector and the write index;
a write outside the vector has no defined result. -/
def writeNext (st : List Point × Nat) (q : Point) : Option (List Point × Nat) :=
  if st.2 < st.1.length then some (st.1.set st.2 q, st.2 + 1) else none

/-- One pass of the first loop of `generate_constraint_map`, for the index `i`. -/
def rowColStep (row col : Nat) (st : List Point × Nat) (i : Nat) : Option (List Point × Nat) := do
  let st ← if col ≠ i then writeNext st ⟨row, i⟩ else some st
  if row ≠ i then writeNext st ⟨i, col⟩ else some st

/-- One pass of the inner block loop, for the indices `i` and `j`;
`Point(i, j)` converts two `int`s to `uint8_t`. -/
def blockStep (row col i : Nat) (st : List Point × Nat) (j : Nat) : Option (List Point × Nat) :=
  if i ≠ row ∧ j ≠ col then writeNext st ⟨i % 256, j % 256⟩ else some st

/-- The body of `generate_constraint_map` that fills the local vector `ps`:
the result is the vector together with the final write index `ix`. -/
def peerVector (p : Point) : Option (List Point × Nat) := do
  let row := p.row
  let col := p.col
  let st0 : List Point × Nat := (List.replicate 20 default, 0)
  let st1 ← (List.range 9).foldlM (rowColStep row col) st0
  let startRow := row - row % 3
  let startCol := col - col % 3
  (List.range' startRow 3).foldlM (fun st i =>
    (List.range' startCol 3).foldlM (blockStep row col i) st) st1

namespace SudokuState

/-- `generate_constraint_map(p)`: generate the constraint mapping for a single point. -/
def generate_constraint_map (s : SudokuState) (p : Point) : Option SudokuState :=
  if s.constraint_map.contains p then some s
  else (peerVector p).map fun st =>
    { s with constraint_map := s.constraint_map.emplace p st.1 }

/-- The members before the constructor body runs: `free_cells(9*9), iterations(0)`,
an empty stack and two empty maps. -/
def blank : SudokuState :=
  { free_cells := 9 * 9, iterations := 0, undo_stack := [],
    cell_states := UMap.empty, constraint_map := UMap.empty }

/-- The body of the constructor's loops for the point `p`. -/
def initStep (s : SudokuState) (p : Point) : Option SudokuState :=
  generate_constraint_map { s with cell_states := s.cell_states.emplace p default } p

/-- The constructor `SudokuState()`: its two loops visit `allPoints` in order. -/
def init : Option SudokuState := allPoints.foldlM initStep blank

end SudokuState

/-- The points `generate_constraint_map` writes into `ps`, in the order of
the writes, as one list (`peerVector_eq` relates it to `peerVector`). -/
def peerWrites (p : Point) : List Point :=
  ((List.range 9).flatMap fun i =>
      (if p.col ≠ i then [Point.mk p.row i] else []) ++
      (if p.row ≠ i then [Point.mk i p.col] else [])) ++
  ((List.range' (p.row - p.row % 3) 3).flatMap fun i =>
    (List.range' (p.col - p.col % 3) 3).flatMap fun j =>
      if i ≠ p.row ∧ j ≠ p.col then [Point.mk (i % 256) (j % 256)] else [])

/-- The freshly constructed state, written out: no cell is assigned, every cell
of the grid has all nine options, and every cell of the grid is mapped to the
points written for it.  `init_eq_some_fresh` proves that the constructor
`SudokuState.init` completes and returns this state. -/
def fresh : SudokuState :=
  { free_cells := 9 * 9, iterations := 0, undo_stack := [],
    cell_states := ⟨fun q => if q.inGrid then some default else none⟩,
    constraint_map := ⟨fun q => if q.inGrid then some (peerWrites q) else none⟩ }

namespace SudokuState

/-- `is_solved()`. -/
def is_solved (s : SudokuState) : Bool := s.free_cells == 0

/-- The loop of `set` under `force`: `cell_states[other].remove_option(value)` for
each constrained point (the write through `cell_states[other]` also inserts the key). -/
def forceLoop (value : Nat) (cells : UMap CellState) (cs : List Point) : UMap CellState :=
  cs.foldl (fun m other =>
    let other_state := m.subscript other
    m.store other (other_state.remove_option value).2) cells

/-- The loop of `set` without `force`: remove the option where it is present and
push the point on the entry at the top of the undo stack. -/
def recordLoop (value : Nat) (acc : UMap CellState × SetOperation) (cs : List Point) :
    UMap CellState × SetOperation :=
  cs.foldl (fun acc other =>
    let m := acc.1.touch other
    let other_state := m.subscript other
    if other_state.has_option value then
      (m.store other (other_state.remove_option value).2,
        { acc.2 with forbids := acc.2.forbids ++ [other] })
    else (m, acc.2)) acc

/-- `set(p, value, force)`: sets a value; if `force` is set, does not allow undo.
The result is the returned flag and the state after the call. -/
def set (s : SudokuState) (p : Point) (value : Nat) (force : Bool) : Bool × SudokuState :=
  let s0 : SudokuState := { s with cell_states := s.cell_states.touch p }
  let state := s0.cell_states.subscript p
  if state.get_value > 0 then (false, s0)
  else if !state.has_option value then (false, s0)
  else
    let s1 : SudokuState := { s0 with cell_states := s0.cell_states.store p (state.set_value value) }
    let s2 : SudokuState := { s1 with constraint_map := s1.constraint_map.touch p }
    let cs := s2.constraint_map.subscript p
    let s3 : SudokuState :=
      if force then { s2 with cell_states := forceLoop value s2.cell_states cs }
      else
        let r := recordLoop value (s2.cell_states, { forbids := [], set := p, value := value }) cs
        { s2 with cell_states := r.1, undo_stack := r.2 :: s2.undo_stack }
    (true, { s3 with free_cells := (s3.free_cells + 255) % 256 })

/-- `force(p, value)`: force a cell value with no option to undo. -/
def force (s : SudokuState) (p : Point) (value : Nat) : Bool × SudokuState :=
  s.set p value true

/-- `unset()`: read the last set operation from the undo stack and undo all its
changes to the state; `top()` of an empty stack has no defined result. -/
def unset (s : SudokuState) : Option SudokuState :=
  match s.undo_stack with
  | [] => none
  | op :: rest =>
    let cells := op.forbids.foldl (fun m q =>
      let q_state := m.subscript q
      m.store q (q_state.add_option op.value)) s.cell_states
    let set_state := cells.subscript op.set
    let cells := cells.store op.set (set_state.set_value 0)
    some { s with cell_states := cells, free_cells := (s.free_cells + 1) % 256,
                  undo_stack := rest }

end SudokuState

/-- How the scan for the most constrained cell in `solve` ends. -/
inductive Scan where
  /-- An empty cell without options was met: `solve` returns false. -/
  | dead
  /-- The loop ended, by exhaustion or by `break`, with these values of
  `most_constraints` and `most_constrained_cell`. -/
  | finished (most_constraints : Nat) (most_constrained_cell : Point × CellState)

/-- The loop of `solve` over `cell_states`; `order` is the order in which the
iterator yields the keys (a point that is no key is no element and is passed over). -/
def scan (cells : UMap CellState) :
    List Point → Nat → Point × CellState → Scan
  | [], most_constraints, cell => .finished most_constraints cell
  | p :: rest, most_constraints, cell =>
    match cells.slot p with
    | none => scan cells rest most_constraints cell
    | some state =>
      if state.get_value = 0 then
        let option_count := state.get_option_count
        if option_count = 0 then .dead
        else if option_count > 0 ∧ option_count < most_constraints then
          if option_count = 1 then .finished option_count (p, state)
          else scan cells rest option_count (p, state)
        else scan cells rest most_constraints cell
      else scan cells rest most_constraints cell

/-- Why a run of the model has no result. -/
inductive Fault where
  /-- The recursion budget given to `solve` was used up. -/
  | fuel
  /-- `unset()` was called on an empty undo stack. -/
  | emptyStack
deriving DecidableEq, Repr

/-- The loop of `solve` over the values 1..9 for the chosen cell; `recur` is the
recursive call of `solve`.  The result of `set` is not looked at, as in the source. -/
def valueLoop (recur : SudokuState → Except Fault (Bool × SudokuState))
    (cell : Point × CellState) : List Nat → SudokuState → Except Fault (Bool × SudokuState)
  | [], s => .ok (false, s)
  | value :: rest, s =>
    if cell.2.has_option value then
      match recur (s.set cell.1 value false).2 with
      | .error e => .error e
      | .ok (true, s2) => .ok (true, s2)
      | .ok (false, s2) =>
        match s2.unset with
        | none => .error Fault.emptyStack
        | some s3 => valueLoop recur cell rest s3
    else valueLoop recur cell rest s

/-- `solve()`, with the returned flag and the state after the call.  `order` is
the iteration order of `cell_states`, the first argument bounds the depth of
the recursion. -/
def solve (order : List Point) : Nat → SudokuState → Except Fault (Bool × SudokuState)
  | 0, _ => .error Fault.fuel
  | fuel + 1, s =>
    if s.is_solved then .ok (true, s)
    else
      let s1 : SudokuState := { s with iterations := (s.iterations + 1) % 2 ^ 32 }
      match scan s1.cell_states order 10 (default, default) with
      | .dead => .ok (false, s1)
      | .finished most_constraints cell =>
        if most_constraints > 9 then .ok (false, s1)
        else valueLoop (solve order fuel) cell (List.range' 1 9) s1

/-! ## Vocabulary of the specification -/

/-- The peer relation as the specification words it: `q` is another cell of the
grid that shares the row, the column or the 3x3 block of `p`. -/
def isPeer (p q : Point) : Prop :=
  q.inGrid ∧ q ≠ p ∧
    (q.row = p.row ∨ q.col = p.col ∨ (q.row / 3 = p.row / 3 ∧ q.col / 3 = p.col / 3))

instance (p q : Point) : Decidable (isPeer p q) := by
  unfold isPeer; infer_instance

/-- The value a cell holds, 0 for an empty cell: `cell_states[p].get_value()`. -/
def SudokuState.valueAt (s : SudokuState) (p : Point) : Nat :=
  (s.cell_states.subscript p).get_value

/-- Whether digit `v` is a candidate of the cell: `cell_states[p].has_option(v)`. -/
def SudokuState.candidate (s : SudokuState) (p : Point) (v : Nat) : Bool :=
  (s.cell_states.subscript p).has_option v

/-- The nine cells of row `r`. -/
def rowCells (r : Nat) : List Point := (List.range 9).map fun c => Point.mk r c

/-- The nine cells of column `c`. -/
def colCells (c : Nat) : List Point := (List.range 9).map fun r => Point.mk r c

/-- The nine cells of the 3x3 block number `b`, blocks counted row by row. -/
def blockCells (b : Nat) : List Point :=
  (List.range 3).flatMap fun i => (List.range 3).map fun j =>
    Point.mk (3 * (b / 3) + i) (3 * (b % 3) + j)

/-- The 27 units of the grid: 9 rows, 9 columns and 9 blocks. -/
def units : List (List Point) :=
  (List.range 9).flatMap fun k => [rowCells k, colCells k, blockCells k]

/-- The cells of `cells` hold each digit 1..9 exactly once under `g`. -/
def OnceEach (g : Point → Nat) (cells : List Point) : Prop :=
  ∀ d, 1 ≤ d → d ≤ 9 → (cells.map g).count d = 1

/-- A full valid grid: every cell holds a digit 1..9, and every row, column and
block holds each digit exactly once. -/
def ValidGrid (g : Point → Nat) : Prop :=
  (∀ p : Point, p.inGrid → 1 ≤ g p ∧ g p ≤ 9) ∧ ∀ u ∈ units, OnceEach g u

/-- The grid `g` is a valid completion of the state `s`: `g` is a valid grid
that agrees with every assigned cell of `s`. -/
def Completes (g : Point → Nat) (s : SudokuState) : Prop :=
  ValidGrid g ∧ ∀ p : Point, p.inGrid → s.valueAt p ≠ 0 → g p = s.valueAt p

/-- The states obtained from a freshly constructed `SudokuState` by `force` calls
on cells of the grid with digits 1..9, whether or not each call succeeds. -/
inductive Seeded : SudokuState → Prop
  | fresh : Seeded fresh
  | force {s : SudokuState} (p : Point) (v : Nat) :
      Seeded s → p.inGrid → 1 ≤ v → v ≤ 9 → Seeded (s.force p v).2

/-- The states obtained from a freshly constructed `SudokuState` by any sequence
of `force`, `set` and `unset` calls (cells of the grid, digits 1..9, `unset` only
on a non-empty undo stack). -/
inductive Reachable : SudokuState → Prop
  | fresh : Reachable fresh
  | set {s : SudokuState} (p : Point) (v : Nat) (force : Bool) :
      Reachable s → p.inGrid → 1 ≤ v → v ≤ 9 → Reachable (s.set p v force).2
  | unset {s s2 : SudokuState} : Reachable s → s.unset = some s2 → Reachable s2

/-- The layout every `SudokuState` object has from its constructor on: the keys
of `cell_states` are the 81 cells of the grid, `constraint_map` is the one the
constructor built, and the `uint8_t` members are within their type. -/
structure WF (s : SudokuState) : Prop where
  keys : ∀ p : Point, (s.cell_states.slot p).isSome = true ↔ p.inGrid
  topo : s.constraint_map = fresh.constraint_map
  free_lt : s.free_cells < 256
  count_lt : ∀ p : Point, (s.cell_states.subscript p).option_count < 256

/-- The freshly constructed state as the first call of `solve` has it after its
`iterations++`: the layout is that of the class, and no sequence of `force`,
`set` and `unset` calls alone leads to it. -/
def counted : SudokuState := { fresh with iterations := 1 }

/-- The invariant of the search: the layout `WF`, the conservation of
`free_cells`, digits as values, forward checking (a digit is a candidate of a
cell exactly when no peer holds it), the cached option count, and no two peers
with the same value. -/
structure Inv (s : SudokuState) : Prop where
  wf : WF s
  conserved : s.free_cells + allPoints.countP (fun p => decide (s.valueAt p ≠ 0)) = 81
  values : ∀ p : Point, s.valueAt p ≤ 9
  fc : ∀ p : Point, p.inGrid → ∀ v, 1 ≤ v → v ≤ 9 →
    (s.candidate p v = true ↔ ∀ q, isPeer p q → s.valueAt q ≠ v)
  counts : ∀ p : Point, p.inGrid →
    (s.cell_states.subscript p).option_count = (List.range' 1 9).countP (s.candidate p)
  noclash : ∀ p q : Point, isPeer p q → s.valueAt p ≠ 0 → s.valueAt p ≠ s.valueAt q

/-- What holds of every reachable state: the layout `WF`, the conservation of
`free_cells`, and an undo stack whose entries name distinct assigned cells of
the grid. -/
structure ReachInv (s : SudokuState) : Prop where
  wf : WF s
  conserved : s.free_cells + allPoints.countP (fun p => decide (s.valueAt p ≠ 0)) = 81
  stack_nodup : (s.undo_stack.map fun op => op.set).Nodup
  entries : ∀ op ∈ s.undo_stack, op.set.inGrid ∧ s.valueAt op.set ≠ 0 ∧ op.forbids.Nodup ∧
    ∀ q ∈ op.forbids, q.inGrid

/-- What a call of `solve` on the state `s` yields when `r` is its outcome. -/
def SolveSpec (order : List Point) (r : Except Fault (Bool × SudokuState)) (s : SudokuState) :
    Prop :=
  ∃ b s2, r = .ok (b, s2) ∧
    (b = false → s2 = { s with iterations := s2.iterations } ∧
      ((∀ q : Point, q.inGrid → q ∈ order) → ∀ g, ¬ Completes g s)) ∧
    (b = true → Inv s2 ∧ s2.free_cells = 0 ∧
      ∀ q : Point, s.valueAt q ≠ 0 → s2.valueAt q = s.valueAt q)

/-- The state after forcing the listed clues in order, as a reader seeds the grid. -/
def seed (s : SudokuState) (clues : List (Point × Nat)) : SudokuState :=
  clues.foldl (fun s c => (s.force c.1 c.2).2) s

/-- A full valid grid: the shifted rows `1 2 3 4 5 6 7 8 9`, `4 5 6 7 8 9 1 2 3`, ... -/
def shiftedGrid (p : Point) : Nat := (3 * (p.row % 3) + p.row / 3 + p.col) % 9 + 1

/-- A seeded grid without solution: row 0 holds 1..8 in its first eight cells and
the last column holds 9 in row 1, so that no digit is left for the cell (0, 8). -/
def blockedGrid : SudokuState :=
  seed fresh [(⟨0, 0⟩, 1), (⟨0, 1⟩, 2), (⟨0, 2⟩, 3), (⟨0, 3⟩, 4), (⟨0, 4⟩, 5), (⟨0, 5⟩, 6),
    (⟨0, 6⟩, 7), (⟨0, 7⟩, 8), (⟨1, 8⟩, 9)]

/-! ## Cell histories, orderly runs, the logged search and the reader -/

/-- The cell states obtained from a constructed `CellState` by `remove_option` and
`add_option` calls with digits 1..9. -/
inductive CellReach : CellState → Prop
  | init : CellReach default
  | remove {c : CellState} (v : Nat) : CellReach c → 1 ≤ v → v ≤ 9 →
      CellReach (c.remove_option v).2
  | add {c : CellState} (v : Nat) : CellReach c → 1 ≤ v → v ≤ 9 → CellReach (c.add_option v)

/-- The number of digits 1..9 that are options of the cell. -/
def CellState.optionsLeft (c : CellState) : Nat := (List.range' 1 9).countP c.has_option

/-- The states of a search under way: a seeded state followed by successful
`set` calls that are all still on the undo stack. -/
inductive Trail : SudokuState → Prop
  | seeded {s : SudokuState} : Seeded s → Trail s
  | push {s : SudokuState} (p : Point) (v : Nat) :
      Trail s → p.inGrid → 1 ≤ v → v ≤ 9 → (s.set p v false).1 = true →
      Trail (s.set p v false).2

/-- The states reached from a fresh `SudokuState` by `force` calls followed by a
properly nested sequence of successful `set` calls and `unset` calls, as `solve`
produces them. -/
inductive Searching : SudokuState → Prop
  | seeded {s : SudokuState} : Seeded s → Searching s
  | set {s : SudokuState} (p : Point) (v : Nat) :
      Searching s → p.inGrid → 1 ≤ v → v ≤ 9 → (s.set p v false).1 = true →
      Searching (s.set p v false).2
  | unset {s s2 : SudokuState} : Searching s → s.unset = some s2 → Searching s2

/-- The states reached from a fresh `SudokuState` by `force`, `set` and `unset`
calls (cells of the grid, digits 1..9, `unset` only on a non-empty undo stack)
in which `force` is called only while the undo stack is empty. -/
inductive Orderly : SudokuState → Prop
  | fresh : Orderly fresh
  | force {s : SudokuState} (p : Point) (v : Nat) :
      Orderly s → s.undo_stack = [] → p.inGrid → 1 ≤ v → v ≤ 9 → Orderly (s.force p v).2
  | set {s : SudokuState} (p : Point) (v : Nat) :
      Orderly s → p.inGrid → 1 ≤ v → v ≤ 9 → Orderly (s.set p v false).2
  | unset {s s2 : SudokuState} : Orderly s → s.unset = some s2 → Orderly s2

/-- A tentative assignment (0,0)=1 followed by the forced assignment (4,4)=1. -/
def mixedStart : SudokuState := ((fresh.set ⟨0, 0⟩ 1 false).2.force ⟨4, 4⟩ 1).2

/-- The state after `set((0,0),1)`, `force((4,4),1)`, `unset()`, `force((0,4),1)`. -/
def mixedRun : SudokuState :=
  match mixedStart.unset with
  | some t => (t.force ⟨0, 4⟩ 1).2
  | none => mixedStart

/-- The grid as a reader seeds it from two identical clues in one row:
`force((0,0),5)` followed by `force((0,1),5)`. -/
def twoClues : SudokuState := seed fresh [(⟨0, 0⟩, 5), (⟨0, 1⟩, 5)]

/-- A full valid grid with 5 in the cell (0,0): `shiftedGrid` with every digit
moved four places on. -/
def fiveGrid (p : Point) : Nat := (shiftedGrid p + 3) % 9 + 1

/-- What a run of `solve` does to the state, step by step. -/
inductive Event where
  /-- `solve` is entered, `depth` calls below the outermost one, on the state `s`. -/
  | enter (depth : Nat) (s : SudokuState)
  /-- `iterations++` has left the state `s`. -/
  | tick (s : SudokuState)
  /-- `set(p, value)` has returned `result` and left the state `s`. -/
  | setCall (p : Point) (value : Nat) (result : Bool) (s : SudokuState)
  /-- `unset()` is called in the loop pass for `p` and `value`, with `top` at the
  top of the undo stack (`none` on an empty stack), and leaves `s`. -/
  | unsetCall (p : Point) (value : Nat) (top : Option SetOperation) (s : Option SudokuState)

/-- The states an event shows. -/
def Event.states : Event → List SudokuState
  | .enter _ s => [s]
  | .tick s => [s]
  | .setCall _ _ _ s => [s]
  | .unsetCall _ _ _ (some s) => [s]
  | .unsetCall _ _ _ none => []

/-- `valueLoop` with the log of its steps; `recur` is the logged recursive call. -/
def valueLoopLog (recur : SudokuState → Except Fault (Bool × SudokuState) × List Event)
    (cell : Point × CellState) :
    List Nat → SudokuState → Except Fault (Bool × SudokuState) × List Event
  | [], s => (.ok (false, s), [])
  | value :: rest, s =>
    if cell.2.has_option value then
      let r := s.set cell.1 value false
      let called := Event.setCall cell.1 value r.1 r.2
      let inner := recur r.2
      match inner.1 with
      | .error e => (.error e, called :: inner.2)
      | .ok (true, s2) => (.ok (true, s2), called :: inner.2)
      | .ok (false, s2) =>
        let undone := Event.unsetCall cell.1 value s2.undo_stack.head? s2.unset
        match s2.unset with
        | none => (.error Fault.emptyStack, called :: (inner.2 ++ [undone]))
        | some s3 =>
          let later := valueLoopLog recur cell rest s3
          (later.1, called :: (inner.2 ++ undone :: later.2))
    else valueLoopLog recur cell rest s

/-- `solve` with the log of its steps: the same run as `solve` (`solveLog_fst`),
which also records every call of `solve`, `set` and `unset` and every state in
between.  `depth` is the number of calls of `solve` around this one. -/
def solveLog (order : List Point) :
    Nat → Nat → SudokuState → Except Fault (Bool × SudokuState) × List Event
  | 0, _, _ => (.error Fault.fuel, [])
  | fuel + 1, depth, s =>
    if s.is_solved then (.ok (true, s), [Event.enter depth s])
    else
      let s1 : SudokuState := { s with iterations := (s.iterations + 1) % 2 ^ 32 }
      match scan s1.cell_states order 10 (default, default) with
      | .dead => (.ok (false, s1), [Event.enter depth s, Event.tick s1])
      | .finished most_constraints cell =>
        if most_constraints > 9 then (.ok (false, s1), [Event.enter depth s, Event.tick s1])
        else
          let r := valueLoopLog (solveLog order fuel (depth + 1)) cell (List.range' 1 9) s1
          (r.1, Event.enter depth s :: Event.tick s1 :: r.2)

/-- What holds of an event of a run of `solve` that started on a state of the
search with `n` free cells at depth 0. -/
def EventOK (n : Nat) : Event → Prop
  | .enter d t => Inv t ∧ t.free_cells + d = n
  | .tick t => Inv t
  | .setCall _ _ r t => r = true ∧ Inv t
  | .unsetCall p v top r =>
    (∃ op, top = some op ∧ op.set = p ∧ op.value = v) ∧ ∃ t, r = some t ∧ Inv t

/-- The characters `read` skips: `string skip(" -|+/\\\n")`. -/
def skipChars : List Char := [' ', '-', '|', '+', '/', '\\', '\n']

/-- The lines successive `getline` calls yield until `eof()`: the text cut at
every newline (a text that ends in a newline yields a last empty line). -/
def splitLines : List Char → List (List Char)
  | [] => [[]]
  | c :: rest =>
    if c = '\n' then [] :: splitLines rest
    else
      match splitLines rest with
      | [] => [[c]]
      | line :: lines => (c :: line) :: lines

/-- The inner loop of `read` over the characters of one line (it ends at the
terminator of `c_str()`): the state and `hasData` after the loop. -/
def readCells (row : Nat) : List Char → Nat → Bool → SudokuState → SudokuState × Bool
  | [], _, hasData, state => (state, hasData)
  | c :: rest, col, hasData, state =>
    if c = '\x00' then (state, hasData)
    else if skipChars.contains c then readCells row rest col hasData state
    else
      let state :=
        if '1' ≤ c ∧ c ≤ '9' then
          (state.force ⟨row % 256, col % 256⟩ ((c.toNat - '0'.toNat) % 256)).2
        else state
      if col + 1 > 9 then (state, true) else readCells row rest (col + 1) true state

/-- The outer loop of `read` over the lines. -/
def readRows : List (List Char) → Nat → SudokuState → SudokuState
  | [], _, state => state
  | line :: rest, row, state =>
    let r := readCells row line 0 false state
    let row := if r.2 then row + 1 else row
    if row > 9 then r.1 else readRows rest row r.1

/-- `read(in)` on a stream that holds `text`; the state it starts from is the
constructed one. -/
def read (text : String) : SudokuState := readRows (splitLines text.toList) 0 fresh

/-! ## The constraint topology -/

theorem foldlM_writes {α : Type} (f : α → List Point)
    (g : (List Point × Nat) → α → Option (List Point × Nat))
    (hg : ∀ st a, g st a = (f a).foldlM writeNext st) (l : List α) (st : List Point × Nat) :
    l.foldlM g st = (l.flatMap f).foldlM writeNext st := by
  induction l generalizing st with
  | nil => simp
  | cons a l ih =>
    simp only [List.foldlM_cons, List.flatMap_cons, List.foldlM_append, hg]
    congr 1
    funext st2
    exact ih st2

theorem set_length_append (pre : List Point) (x w : Point) (t : List Point) :
    (pre ++ x :: t).set pre.length w = pre ++ w :: t := by
  induction pre with
  | nil => rfl
  | cons a pre ih => simp [ih]

theorem writes_replicate (ws pre : List Point) (k : Nat) (h : ws.length ≤ k) :
    ws.foldlM writeNext (pre ++ List.replicate k default, pre.length) =
      some (pre ++ ws ++ List.replicate (k - ws.length) default, pre.length + ws.length) := by
  induction ws generalizing pre k with
  | nil => simp
  | cons w ws ih =>
    obtain ⟨k, rfl⟩ : ∃ k2, k = k2 + 1 := ⟨k - 1, by simp at h; omega⟩
    have h1 : writeNext (pre ++ List.replicate (k + 1) default, pre.length) w =
        some ((pre ++ [w]) ++ List.replicate k default, (pre ++ [w]).length) := by
      simp [writeNext, List.replicate_succ, set_length_append]
    simp only [List.foldlM_cons, h1]
    have := ih (pre ++ [w]) k (by simpa using h)
    simp only [Option.bind_eq_bind, Option.some_bind]
    rw [this]
    simp [Nat.add_assoc, Nat.add_comm 1]

theorem rowColStep_eq (row col : Nat) (st : List Point × Nat) (i : Nat) :
    rowColStep row col st i =
      ((if col ≠ i then [Point.mk row i] else []) ++
        (if row ≠ i then [Point.mk i col] else [])).foldlM writeNext st := by
  unfold rowColStep
  by_cases h1 : col = i <;> by_cases h2 : row = i <;> simp [h1, h2]

theorem blockStep_eq (row col i : Nat) (st : List Point × Nat) (j : Nat) :
    blockStep row col i st j =
      (if i ≠ row ∧ j ≠ col then [Point.mk (i % 256) (j % 256)] else []).foldlM writeNext st := by
  unfold blockStep
  by_cases h : i ≠ row ∧ j ≠ col <;> simp [h]

theorem peerVector_eq_writes (p : Point) :
    peerVector p = (peerWrites p).foldlM writeNext (List.replicate 20 default, 0) := by
  unfold peerVector peerWrites
  simp only [List.foldlM_append]
  rw [foldlM_writes _ _ (rowColStep_eq p.row p.col)]
  congr 1
  funext st1
  rw [foldlM_writes (fun i => (List.range' (p.col - p.col % 3) 3).flatMap fun j =>
      if i ≠ p.row ∧ j ≠ p.col then [Point.mk (i % 256) (j % 256)] else [])]
  intro st i
  exact foldlM_writes _ _ (blockStep_eq p.row p.col i) _ st

theorem peerWrites_table :
    ∀ r < 9, ∀ c < 9, (peerWrites ⟨r, c⟩).length = 20 ∧
      ((peerWrites ⟨r, c⟩).map fun q => 9 * q.row + q.col).Nodup := by
  decide!

theorem peerWrites_length {p : Point} (hp : p.inGrid) : (peerWrites p).length = 20 :=
  (peerWrites_table p.row hp.1 p.col hp.2).1

theorem peerWrites_nodup {p : Point} (hp : p.inGrid) : (peerWrites p).Nodup :=
  List.Nodup.of_map _ (peerWrites_table p.row hp.1 p.col hp.2).2

theorem peerVector_eq {p : Point} (hp : p.inGrid) :
    peerVector p = some (peerWrites p, 20) := by
  rw [peerVector_eq_writes]
  have h := writes_replicate (peerWrites p) [] 20 (by rw [peerWrites_length hp])
  simp only [List.nil_append, List.length_nil, Nat.zero_add] at h
  rw [h, peerWrites_length hp]
  simp

theorem mem_peerWrites {p : Point} (hp : p.inGrid) (q : Point) :
    q ∈ peerWrites p ↔ isPeer p q := by
  obtain ⟨r, c⟩ := p
  obtain ⟨r2, c2⟩ := q
  simp only [Point.inGrid] at hp
  simp only [peerWrites, isPeer, Point.inGrid, List.mem_append, List.mem_flatMap, List.mem_range,
    List.mem_range', ne_eq, Point.mk.injEq]
  constructor
  · rintro (⟨i, hi, h⟩ | ⟨i, ⟨a, ha, rfl⟩, j, ⟨b, hb, rfl⟩, h⟩)
    · rcases h with h | h
      · split at h
        · simp only [List.mem_singleton, Point.mk.injEq] at h
          omega
        · simp at h
      · split at h
        · simp only [List.mem_singleton, Point.mk.injEq] at h
          omega
        · simp at h
    · split at h
      · simp only [List.mem_singleton, Point.mk.injEq] at h
        omega
      · simp at h
  · rintro ⟨⟨h1, h2⟩, h3, h4⟩
    by_cases hr : r2 = r
    · left
      refine ⟨c2, h2, Or.inl ?_⟩
      have : ¬ c = c2 := by intro h; exact h3 ⟨hr, h.symm⟩
      simp [this, hr]
    · by_cases hc : c2 = c
      · left
        refine ⟨r2, h1, Or.inr ?_⟩
        have : ¬ r = r2 := fun h => hr h.symm
        simp [this, hc]
      · right
        have h5 : r2 / 3 = r / 3 ∧ c2 / 3 = c / 3 := by omega
        refine ⟨r2, ⟨r2 - (r - r % 3), by omega, by omega⟩, c2, ⟨c2 - (c - c % 3), by omega, by omega⟩, ?_⟩
        have e1 : r2 % 256 = r2 := by omega
        have e2 : c2 % 256 = c2 := by omega
        simp [hr, hc, e1, e2]

/-! ## Bits and cells -/

theorem Bits.test_reset (b i j : Nat) : Bits.test (Bits.reset b i) j = (Bits.test b j && decide (j ≠ i)) := by
  unfold Bits.test Bits.reset
  rw [Nat.testBit_xor, Nat.testBit_and, Nat.one_shiftLeft, Nat.testBit_two_pow]
  by_cases h : i = j
  · subst h; cases Nat.testBit b i <;> simp
  · have : ¬ j = i := fun e => h e.symm
    cases Nat.testBit b j <;> simp [h, this]

theorem Bits.test_raise (b i j : Nat) : Bits.test (Bits.raise b i) j = (Bits.test b j || decide (j = i)) := by
  unfold Bits.test Bits.raise
  rw [Nat.testBit_or, Nat.one_shiftLeft, Nat.testBit_two_pow]
  by_cases h : i = j
  · subst h; simp
  · have : ¬ j = i := fun e => h e.symm
    simp [h, this]

theorem Bits.reset_of_not_test (b i : Nat) (h : Bits.test b i = false) : Bits.reset b i = b := by
  apply Nat.eq_of_testBit_eq
  intro j
  have := Bits.test_reset b i j
  unfold Bits.test at this h
  rw [this]
  by_cases e : j = i
  · subst e; simp [h]
  · simp [e]

theorem Bits.raise_reset (b i : Nat) (h : Bits.test b i = true) : Bits.raise (Bits.reset b i) i = b := by
  apply Nat.eq_of_testBit_eq
  intro j
  have h1 := Bits.test_raise (Bits.reset b i) i j
  rw [Bits.test_reset] at h1
  unfold Bits.test at h1 h
  rw [h1]
  by_cases e : j = i
  · subst e; simp [h]
  · simp [e]

namespace CellState

theorem remove_option_value (c : CellState) (v : Nat) : (c.remove_option v).2.value = c.value := by
  unfold remove_option; split <;> rfl

theorem has_option_remove_option (c : CellState) (v w : Nat) :
    (c.remove_option v).2.has_option w = (c.has_option w && decide (w - 1 ≠ v - 1)) := by
  unfold remove_option has_option
  split <;> simp [Bits.test_reset]

theorem remove_option_of_not_has (c : CellState) (v : Nat) (h : c.has_option v = false) :
    (c.remove_option v).2 = c := by
  unfold has_option at h
  unfold remove_option
  simp [h, Bits.reset_of_not_test]

theorem option_count_remove_option (c : CellState) (v : Nat) :
    (c.remove_option v).2.option_count =
      if c.has_option v then (c.option_count + 255) % 256 else c.option_count := by
  unfold remove_option has_option
  split <;> rfl

theorem add_remove_option (c : CellState) (v : Nat) (h : c.has_option v = true)
    (hc : c.option_count < 256) : (c.remove_option v).2.add_option v = c := by
  unfold has_option at h
  unfold remove_option add_option
  have e : (c.option_count + 255) % 256 + 1 = c.option_count ∨
      (c.option_count + 255) % 256 + 1 = 256 ∧ c.option_count = 0 := by omega
  have e2 : ((c.option_count + 255) % 256 + 1) % 256 = c.option_count := by omega
  simp [h, Bits.test_reset, Bits.raise_reset, e2]

theorem add_option_value (c : CellState) (v : Nat) : (c.add_option v).value = c.value := by
  unfold add_option; split <;> rfl

end CellState

namespace UMap

theorem slot_store {β : Type} (m : UMap β) (p q : Point) (b : β) :
    (m.store p b).slot q = if q = p then some b else m.slot q := rfl

theorem slot_emplace {β : Type} (m : UMap β) (p q : Point) (b : β) :
    (m.emplace p b).slot q = if q = p then some ((m.slot p).getD b) else m.slot q := rfl

theorem slot_touch {β : Type} [Inhabited β] (m : UMap β) (p q : Point) :
    (m.touch p).slot q = if q = p then some (m.subscript p) else m.slot q := rfl

theorem subscript_store {β : Type} [Inhabited β] (m : UMap β) (p q : Point) (b : β) :
    (m.store p b).subscript q = if q = p then b else m.subscript q := by
  unfold subscript
  rw [slot_store]
  split <;> rfl

theorem subscript_touch {β : Type} [Inhabited β] (m : UMap β) (p q : Point) :
    (m.touch p).subscript q = m.subscript q := by
  unfold subscript
  rw [slot_touch]
  split
  · next h => subst h; rfl
  · rfl

theorem slot_eq_some_subscript {β : Type} [Inhabited β] (m : UMap β) (p : Point)
    (h : (m.slot p).isSome = true) : m.slot p = some (m.subscript p) := by
  unfold subscript
  cases hm : m.slot p with
  | none => rw [hm] at h; cases h
  | some b => rfl

theorem touch_of_key {β : Type} [Inhabited β] (m : UMap β) (p : Point)
    (h : (m.slot p).isSome = true) : m.touch p = m := by
  ext1
  funext q
  rw [slot_touch]
  split
  · next e => subst e; exact (slot_eq_some_subscript m q h).symm
  · rfl

end UMap

/-! ## The constructed state -/

theorem mem_allPoints (p : Point) : p ∈ allPoints ↔ p.inGrid := by
  obtain ⟨r, c⟩ := p
  simp only [allPoints, List.mem_flatMap, List.mem_range, List.mem_map, Point.mk.injEq,
    Point.inGrid]
  constructor
  · rintro ⟨i, hi, j, hj, rfl, rfl⟩
    exact ⟨hi, hj⟩
  · rintro ⟨h1, h2⟩
    exact ⟨r, h1, c, h2, rfl, rfl⟩

theorem allPoints_nodup : allPoints.Nodup := by
  have h : (allPoints.map fun q => 9 * q.row + q.col) = List.range 81 := rfl
  exact List.Nodup.of_map _ (h ▸ List.nodup_range 81)

theorem allPoints_length : allPoints.length = 81 := rfl

theorem initStep_spec (s : SudokuState) (p : Point) (hp : p.inGrid) :
    ∃ s2, SudokuState.initStep s p = some s2 ∧
      s2.free_cells = s.free_cells ∧ s2.iterations = s.iterations ∧
      s2.undo_stack = s.undo_stack ∧
      (∀ q, s2.cell_states.slot q =
        if q = p then some ((s.cell_states.slot p).getD default) else s.cell_states.slot q) ∧
      (∀ q, s2.constraint_map.slot q =
        if q = p then some ((s.constraint_map.slot p).getD (peerWrites p))
        else s.constraint_map.slot q) := by
  unfold SudokuState.initStep SudokuState.generate_constraint_map
  by_cases h : s.constraint_map.contains p = true
  · refine ⟨{ s with cell_states := s.cell_states.emplace p default }, by simp [h],
      rfl, rfl, rfl, fun q => rfl, fun q => ?_⟩
    simp only [UMap.contains] at h
    split
    · next e =>
      subst e
      cases hm : s.constraint_map.slot q with
      | none => rw [hm] at h; cases h
      | some b => rfl
    · rfl
  · simp only [h, peerVector_eq hp]
    exact ⟨_, rfl, rfl, rfl, rfl, fun q => rfl, fun q => rfl⟩

theorem foldlM_initStep (l : List Point) (hl : ∀ p ∈ l, p.inGrid) (s : SudokuState) :
    ∃ s2, l.foldlM SudokuState.initStep s = some s2 ∧
      s2.free_cells = s.free_cells ∧ s2.iterations = s.iterations ∧
      s2.undo_stack = s.undo_stack ∧
      (∀ q, s2.cell_states.slot q =
        if q ∈ l then some ((s.cell_states.slot q).getD default) else s.cell_states.slot q) ∧
      (∀ q, s2.constraint_map.slot q =
        if q ∈ l then some ((s.constraint_map.slot q).getD (peerWrites q))
        else s.constraint_map.slot q) := by
  induction l generalizing s with
  | nil => exact ⟨s, rfl, rfl, rfl, rfl, fun q => by simp, fun q => by simp⟩
  | cons p l ih =>
    obtain ⟨s1, h1, f1, i1, u1, c1, m1⟩ := initStep_spec s p (hl p (List.mem_cons_self _ _))
    obtain ⟨s2, h2, f2, i2, u2, c2, m2⟩ := ih (fun q hq => hl q (List.mem_cons_of_mem _ hq)) s1
    refine ⟨s2, ?_, f2.trans f1, i2.trans i1, u2.trans u1, fun q => ?_, fun q => ?_⟩
    · simp only [List.foldlM_cons, h1]
      exact h2
    · rw [c2, c1]
      by_cases hq : q = p
      · subst hq
        by_cases hql : q ∈ l <;> simp [hql]
      · by_cases hql : q ∈ l <;> simp [hql, hq]
    · rw [m2, m1]
      by_cases hq : q = p
      · subst hq
        by_cases hql : q ∈ l <;> simp [hql]
      · by_cases hql : q ∈ l <;> simp [hql, hq]

theorem init_spec :
    ∃ s, SudokuState.init = some s ∧ s.free_cells = 81 ∧ s.iterations = 0 ∧ s.undo_stack = [] ∧
      (∀ q, s.cell_states.slot q = if q.inGrid then some default else none) ∧
      (∀ q, s.constraint_map.slot q = if q.inGrid then some (peerWrites q) else none) := by
  obtain ⟨s, h, f, i, u, c, m⟩ :=
    foldlM_initStep allPoints (fun p hp => (mem_allPoints p).1 hp) SudokuState.blank
  refine ⟨s, h, f, i, u, fun q => ?_, fun q => ?_⟩
  · rw [c]; simp only [mem_allPoints]; rfl
  · rw [m]; simp only [mem_allPoints]; rfl

theorem init_eq_some_fresh : SudokuState.init = some fresh := by
  obtain ⟨s, h, f, i, u, c, m⟩ := init_spec
  have e : s = fresh := by
    cases s with
    | mk a b c2 d e2 =>
      simp only at f i u c m
      subst f i u
      have hd : d = fresh.cell_states := by ext1; funext q; exact c q
      have he : e2 = fresh.constraint_map := by ext1; funext q; exact m q
      rw [hd, he]
      rfl
  rw [h, e]

theorem fresh_free_cells : fresh.free_cells = 81 := rfl

theorem fresh_undo_stack : fresh.undo_stack = [] := rfl

theorem fresh_cell_slot (q : Point) :
    fresh.cell_states.slot q = if q.inGrid then some default else none := rfl

theorem fresh_constraint_slot (q : Point) :
    fresh.constraint_map.slot q = if q.inGrid then some (peerWrites q) else none := rfl

theorem fresh_subscript (q : Point) : fresh.cell_states.subscript q = default := by
  unfold UMap.subscript
  rw [fresh_cell_slot]
  split <;> rfl

theorem fresh_peers {p : Point} (hp : p.inGrid) :
    fresh.constraint_map.subscript p = peerWrites p := by
  unfold UMap.subscript
  rw [fresh_constraint_slot]
  simp [hp]

/-! ## `set`, `force` and `unset` -/

namespace SudokuState

theorem forceLoop_slot (v : Nat) (cs : List Point) (hcs : cs.Nodup) (m : UMap CellState)
    (q : Point) :
    (forceLoop v m cs).slot q =
      if q ∈ cs then some ((m.subscript q).remove_option v).2 else m.slot q := by
  induction cs generalizing m with
  | nil => simp [forceLoop]
  | cons a cs ih =>
    have hn := List.nodup_cons.1 hcs
    have e : forceLoop v m (a :: cs) =
        forceLoop v (m.store a ((m.subscript a).remove_option v).2) cs := rfl
    rw [e, ih hn.2, UMap.slot_store, UMap.subscript_store]
    by_cases hq : q ∈ cs
    · have : q ≠ a := fun h => hn.1 (h ▸ hq)
      simp [hq, this]
    · by_cases hqa : q = a
      · subst hqa; simp [hq]
      · simp [hq, hqa]

theorem recordLoop_spec (v : Nat) (cs : List Point) (hcs : cs.Nodup)
    (acc : UMap CellState × SetOperation) :
    recordLoop v acc cs =
      (forceLoop v acc.1 cs,
        { acc.2 with forbids := acc.2.forbids ++
            cs.filter fun q => (acc.1.subscript q).has_option v }) := by
  induction cs generalizing acc with
  | nil => simp [recordLoop, forceLoop]
  | cons a cs ih =>
    have hn := List.nodup_cons.1 hcs
    have e : recordLoop v acc (a :: cs) =
        recordLoop v
          (if ((acc.1.touch a).subscript a).has_option v = true then
            ((acc.1.touch a).store a (((acc.1.touch a).subscript a).remove_option v).2,
              { acc.2 with forbids := acc.2.forbids ++ [a] })
          else (acc.1.touch a, acc.2)) cs := rfl
    have e2 : forceLoop v acc.1 (a :: cs) =
        forceLoop v (acc.1.store a ((acc.1.subscript a).remove_option v).2) cs := rfl
    rw [e, ih hn.2, e2, UMap.subscript_touch]
    have hfilter : ∀ m2 : UMap CellState, (∀ q, q ≠ a → m2.subscript q = acc.1.subscript q) →
        (cs.filter fun q => (m2.subscript q).has_option v) =
          cs.filter fun q => (acc.1.subscript q).has_option v := by
      intro m2 hm2
      apply List.filter_congr
      intro q hq
      rw [hm2 q (fun h => hn.1 (h ▸ hq))]
    by_cases ho : (acc.1.subscript a).has_option v = true
    · simp only [ho, if_true]
      have hst : (acc.1.touch a).store a ((acc.1.subscript a).remove_option v).2 =
          acc.1.store a ((acc.1.subscript a).remove_option v).2 := by
        ext1; funext q
        simp only [UMap.slot_store, UMap.slot_touch]
        split <;> rfl
      rw [hst, hfilter _ (fun q hq => by rw [UMap.subscript_store]; simp [hq])]
      simp [List.filter_cons, ho, List.append_assoc]
    · simp only [ho]
      have ho2 : (acc.1.subscript a).has_option v = false := by simpa using ho
      have hst : acc.1.touch a = acc.1.store a ((acc.1.subscript a).remove_option v).2 := by
        rw [CellState.remove_option_of_not_has _ _ ho2]
        rfl
      simp only [Bool.false_eq_true, if_false]
      rw [hfilter _ (fun q hq => UMap.subscript_touch _ _ _), hst]
      simp [List.filter_cons, ho2]

theorem set_fst (s : SudokuState) (p : Point) (v : Nat) (f : Bool) :
    (s.set p v f).1 = (decide (s.valueAt p = 0) && s.candidate p v) := by
  unfold set valueAt candidate
  simp only [UMap.subscript_touch, CellState.get_value]
  by_cases h1 : (s.cell_states.subscript p).value > 0
  · have : ¬ (s.cell_states.subscript p).value = 0 := by omega
    simp [h1, this]
  · have : (s.cell_states.subscript p).value = 0 := by omega
    simp only [h1, if_false, this, decide_True, Bool.true_and]
    cases ho : (s.cell_states.subscript p).has_option v <;> simp

end SudokuState

theorem WF.key {s : SudokuState} (hwf : WF s) {p : Point} (hp : p.inGrid) :
    (s.cell_states.slot p).isSome = true := (hwf.keys p).2 hp

theorem WF.slot {s : SudokuState} (hwf : WF s) {p : Point} (hp : p.inGrid) :
    s.cell_states.slot p = some (s.cell_states.subscript p) :=
  UMap.slot_eq_some_subscript _ _ (hwf.key hp)

theorem WF.slot_none {s : SudokuState} (hwf : WF s) {p : Point} (hp : ¬ p.inGrid) :
    s.cell_states.slot p = none := by
  cases h : s.cell_states.slot p with
  | none => rfl
  | some b => exact absurd ((hwf.keys p).1 (by rw [h]; rfl)) hp

theorem WF.peers {s : SudokuState} (hwf : WF s) {p : Point} (hp : p.inGrid) :
    s.constraint_map.subscript p = peerWrites p := by
  rw [hwf.topo]; exact fresh_peers hp

theorem WF.touch_constraint {s : SudokuState} (hwf : WF s) {p : Point} (hp : p.inGrid) :
    s.constraint_map.touch p = s.constraint_map := by
  apply UMap.touch_of_key
  rw [hwf.topo, fresh_constraint_slot]
  simp [hp]

theorem not_mem_peerWrites_self {p : Point} (hp : p.inGrid) : p ∉ peerWrites p := by
  intro h
  exact ((mem_peerWrites hp p).1 h).2.1 rfl

namespace SudokuState

theorem set_true_iff (s : SudokuState) (p : Point) (v : Nat) (f : Bool) :
    (s.set p v f).1 = true ↔ s.valueAt p = 0 ∧ s.candidate p v = true := by
  rw [set_fst]; simp

theorem set_snd_of_false (s : SudokuState) (p : Point) (v : Nat) (f : Bool)
    (h : (s.set p v f).1 = false) :
    (s.set p v f).2 = { s with cell_states := s.cell_states.touch p } := by
  have h0 := h
  rw [set_fst] at h0
  unfold valueAt candidate CellState.get_value at h0
  unfold set
  simp only [UMap.subscript_touch, CellState.get_value]
  by_cases h1 : (s.cell_states.subscript p).value > 0
  · simp [h1]
  · have h2 : (s.cell_states.subscript p).value = 0 := by omega
    simp only [h2, decide_True, Bool.true_and] at h0
    simp [h1, h0]

theorem set_snd_of_true {s : SudokuState} (hwf : WF s) {p : Point} (hp : p.inGrid) (v : Nat)
    (f : Bool) (h : (s.set p v f).1 = true) :
    (s.set p v f).2 =
      { free_cells := (s.free_cells + 255) % 256
        iterations := s.iterations
        undo_stack :=
          if f then s.undo_stack
          else { forbids := (peerWrites p).filter fun q => s.candidate q v, set := p, value := v }
            :: s.undo_stack
        cell_states :=
          forceLoop v (s.cell_states.store p ((s.cell_states.subscript p).set_value v))
            (peerWrites p)
        constraint_map := s.constraint_map } := by
  obtain ⟨h1, h2⟩ := (set_true_iff s p v f).1 h
  unfold valueAt CellState.get_value at h1
  unfold candidate at h2
  have hfilter : ((peerWrites p).filter fun q =>
        ((s.cell_states.store p ((s.cell_states.subscript p).set_value v)).subscript q).has_option v) =
      (peerWrites p).filter fun q => s.candidate q v := by
    apply List.filter_congr
    intro q hq
    have : q ≠ p := fun e => not_mem_peerWrites_self hp (e ▸ hq)
    simp [UMap.subscript_store, this, candidate]
  unfold set
  simp only [UMap.touch_of_key _ _ (hwf.key hp), hwf.touch_constraint hp, hwf.peers hp,
    CellState.get_value, h1, h2, recordLoop_spec _ _ (peerWrites_nodup hp), hfilter]
  cases f <;> simp

end SudokuState

namespace SudokuState

theorem slot_set {s : SudokuState} (hwf : WF s) {p : Point} (hp : p.inGrid) (v : Nat)
    (f : Bool) (h : (s.set p v f).1 = true) (q : Point) :
    (s.set p v f).2.cell_states.slot q =
      if q = p then some ((s.cell_states.subscript p).set_value v)
      else if q ∈ peerWrites p then some ((s.cell_states.subscript q).remove_option v).2
      else s.cell_states.slot q := by
  rw [set_snd_of_true hwf hp v f h]
  simp only [forceLoop_slot _ _ (peerWrites_nodup hp), UMap.slot_store, UMap.subscript_store]
  by_cases hq : q = p
  · subst hq
    simp [not_mem_peerWrites_self hp]
  · simp [hq]

theorem subscript_set {s : SudokuState} (hwf : WF s) {p : Point} (hp : p.inGrid) (v : Nat)
    (f : Bool) (h : (s.set p v f).1 = true) (q : Point) :
    (s.set p v f).2.cell_states.subscript q =
      if q = p then (s.cell_states.subscript p).set_value v
      else if q ∈ peerWrites p then ((s.cell_states.subscript q).remove_option v).2
      else s.cell_states.subscript q := by
  have e : ∀ m : UMap CellState, m.subscript q = (m.slot q).getD default := fun _ => rfl
  rw [e, slot_set hwf hp v f h]
  by_cases hq : q = p
  · simp [hq]
  · by_cases hq2 : q ∈ peerWrites p <;> simp [hq, hq2, e]

theorem valueAt_set {s : SudokuState} (hwf : WF s) {p : Point} (hp : p.inGrid) (v : Nat)
    (f : Bool) (h : (s.set p v f).1 = true) (q : Point) :
    (s.set p v f).2.valueAt q = if q = p then v else s.valueAt q := by
  unfold valueAt
  rw [subscript_set hwf hp v f h]
  by_cases hq : q = p
  · simp [hq, CellState.set_value, CellState.get_value]
  · by_cases hq2 : q ∈ peerWrites p <;>
      simp [hq, hq2, CellState.get_value, CellState.remove_option_value]

theorem candidate_set {s : SudokuState} (hwf : WF s) {p : Point} (hp : p.inGrid) (v : Nat)
    (f : Bool) (h : (s.set p v f).1 = true) (q : Point) (w : Nat) :
    (s.set p v f).2.candidate q w =
      if q ∈ peerWrites p then (s.candidate q w && decide (w - 1 ≠ v - 1))
      else s.candidate q w := by
  unfold candidate
  rw [subscript_set hwf hp v f h]
  by_cases hq : q = p
  · subst hq
    simp [not_mem_peerWrites_self hp, CellState.set_value, CellState.has_option]
  · by_cases hq2 : q ∈ peerWrites p <;>
      simp [hq, hq2, CellState.has_option_remove_option]

theorem default_has_option {v : Nat} (h1 : 1 ≤ v) (h9 : v ≤ 9) :
    (default : CellState).has_option v = true := by
  interval_cases v <;> rfl

theorem set_snd_of_false_eq (s : SudokuState) (p : Point) {v : Nat} (h1 : 1 ≤ v) (h9 : v ≤ 9)
    (f : Bool) (h : (s.set p v f).1 = false) : (s.set p v f).2 = s := by
  rw [set_snd_of_false s p v f h]
  by_cases hk : (s.cell_states.slot p).isSome = true
  · rw [UMap.touch_of_key _ _ hk]
  · exfalso
    have hn : s.cell_states.slot p = none := by
      cases hs : s.cell_states.slot p with
      | none => rfl
      | some b => rw [hs] at hk; simp at hk
    have hd : s.cell_states.subscript p = default := by
      unfold UMap.subscript; rw [hn]; rfl
    rw [set_fst] at h
    unfold valueAt candidate at h
    rw [hd, default_has_option h1 h9] at h
    exact absurd h (by decide)

theorem unset_eq {s : SudokuState} {op : SetOperation} {rest : List SetOperation}
    (h : s.undo_stack = op :: rest) :
    s.unset = some
      { s with
        cell_states :=
          (op.forbids.foldl (fun m q => m.store q ((m.subscript q).add_option op.value))
            s.cell_states).store op.set
            (((op.forbids.foldl (fun m q => m.store q ((m.subscript q).add_option op.value))
              s.cell_states).subscript op.set).set_value 0)
        free_cells := (s.free_cells + 1) % 256
        undo_stack := rest } := by
  unfold unset
  rw [h]

theorem addLoop_slot (v : Nat) (fs : List Point) (hfs : fs.Nodup) (m : UMap CellState)
    (q : Point) :
    (fs.foldl (fun m q => m.store q ((m.subscript q).add_option v)) m).slot q =
      if q ∈ fs then some ((m.subscript q).add_option v) else m.slot q := by
  induction fs generalizing m with
  | nil => simp
  | cons a fs ih =>
    have hn := List.nodup_cons.1 hfs
    rw [List.foldl_cons, ih hn.2, UMap.slot_store, UMap.subscript_store]
    by_cases hq : q ∈ fs
    · have : q ≠ a := fun h => hn.1 (h ▸ hq)
      simp [hq, this]
    · by_cases hqa : q = a
      · subst hqa; simp [hq]
      · simp [hq, hqa]

theorem addLoop_subscript (v : Nat) (fs : List Point) (hfs : fs.Nodup) (m : UMap CellState)
    (q : Point) :
    (fs.foldl (fun m q => m.store q ((m.subscript q).add_option v)) m).subscript q =
      if q ∈ fs then (m.subscript q).add_option v else m.subscript q := by
  have e : ∀ m : UMap CellState, m.subscript q = (m.slot q).getD default := fun _ => rfl
  rw [e, addLoop_slot v fs hfs]
  split <;> rfl

theorem unset_set {s : SudokuState} (hwf : WF s) {p : Point} (hp : p.inGrid) (v : Nat)
    (h : (s.set p v false).1 = true) : (s.set p v false).2.unset = some s := by
  obtain ⟨h1, h2⟩ := (set_true_iff s p v false).1 h
  have hnd : ((peerWrites p).filter fun q => s.candidate q v).Nodup :=
    (peerWrites_nodup hp).filter _
  have hstack : (s.set p v false).2.undo_stack =
      { forbids := (peerWrites p).filter fun q => s.candidate q v, set := p, value := v }
        :: s.undo_stack := by
    rw [set_snd_of_true hwf hp v false h]; rfl
  rw [unset_eq hstack]
  have hfree : (s.set p v false).2.free_cells = (s.free_cells + 255) % 256 := by
    rw [set_snd_of_true hwf hp v false h]
  have hiter : (s.set p v false).2.iterations = s.iterations := by
    rw [set_snd_of_true hwf hp v false h]
  have hcm : (s.set p v false).2.constraint_map = s.constraint_map := by
    rw [set_snd_of_true hwf hp v false h]
  have hf := hwf.free_lt
  have hfree2 : ((s.free_cells + 255) % 256 + 1) % 256 = s.free_cells := by omega
  have hcells : ((((peerWrites p).filter fun q => s.candidate q v).foldl
        (fun m q => m.store q ((m.subscript q).add_option v))
        (s.set p v false).2.cell_states).store p
        (((((peerWrites p).filter fun q => s.candidate q v).foldl
          (fun m q => m.store q ((m.subscript q).add_option v))
          (s.set p v false).2.cell_states).subscript p).set_value 0)) = s.cell_states := by
    ext1
    funext q
    have hpf : p ∉ (peerWrites p).filter fun q => s.candidate q v :=
      fun hm => not_mem_peerWrites_self hp (List.mem_filter.1 hm).1
    rw [UMap.slot_store, addLoop_subscript v _ hnd, addLoop_slot v _ hnd,
      subscript_set hwf hp v false h, slot_set hwf hp v false h, subscript_set hwf hp v false h]
    by_cases hq : q = p
    · subst hq
      simp only [if_true, hpf, if_false]
      rw [hwf.slot hp]
      unfold valueAt CellState.get_value at h1
      simp only [CellState.set_value]
      rw [← h1]
    · simp only [hq, if_false, List.mem_filter]
      by_cases hq2 : q ∈ peerWrites p
      · have hqg : q.inGrid := ((mem_peerWrites hp q).1 hq2).1
        by_cases hc : s.candidate q v = true
        · simp only [hq2, hc, and_self, if_true]
          rw [CellState.add_remove_option _ _ hc (hwf.count_lt q), hwf.slot hqg]
        · have hc2 : (s.cell_states.subscript q).has_option v = false := by
            simpa [candidate] using hc
          have hc3 : s.candidate q v = false := hc2
          simp only [hq2, hc3, Bool.false_eq_true, and_false, if_false, if_true]
          rw [CellState.remove_option_of_not_has _ _ hc2, hwf.slot hqg]
      · simp [hq2]
  rw [hcells, hfree, hiter, hcm, hfree2]

end SudokuState

/-! ## Invariants -/

theorem countP_flip {α : Type} {l : List α} (hl : l.Nodup) {a : α} (ha : a ∈ l)
    (f g : α → Bool) (hfg : ∀ b ∈ l, b ≠ a → g b = f b) (hf : f a = false) (hg : g a = true) :
    l.countP g = l.countP f + 1 := by
  induction l with
  | nil => cases ha
  | cons b l ih =>
    have hn := List.nodup_cons.1 hl
    rw [List.countP_cons, List.countP_cons]
    by_cases hb : b = a
    · subst hb
      have : l.countP g = l.countP f := by
        apply List.countP_congr
        intro c hc
        have hcb : c ≠ b := fun e => hn.1 (e ▸ hc)
        rw [hfg c (List.mem_cons_of_mem _ hc) hcb]
      simp [this, hf, hg]
    · have hal : a ∈ l := by
        rcases List.mem_cons.1 ha with e | e
        · exact absurd e.symm hb
        · exact e
      rw [ih hn.2 hal (fun c hc hca => hfg c (List.mem_cons_of_mem _ hc) hca),
        hfg b (List.mem_cons_self _ _) hb]
      omega

theorem isPeer_symm {p q : Point} (hp : p.inGrid) (h : isPeer p q) : isPeer q p := by
  obtain ⟨_, h2, h3⟩ := h
  refine ⟨hp, fun e => h2 e.symm, ?_⟩
  rcases h3 with h3 | h3 | ⟨h3, h4⟩
  · exact Or.inl h3.symm
  · exact Or.inr (Or.inl h3.symm)
  · exact Or.inr (Or.inr ⟨h3.symm, h4.symm⟩)

theorem CellState.add_option_count_lt (c : CellState) (v : Nat) (h : c.option_count < 256) :
    (c.add_option v).option_count < 256 := by
  unfold CellState.add_option
  split
  · exact Nat.mod_lt _ (by decide)
  · exact h

theorem CellState.remove_option_count_lt (c : CellState) (v : Nat) (h : c.option_count < 256) :
    (c.remove_option v).2.option_count < 256 := by
  rw [CellState.option_count_remove_option]
  split
  · exact Nat.mod_lt _ (by decide)
  · exact h

namespace SudokuState

theorem set_WF {s : SudokuState} (hwf : WF s) {p : Point} (hp : p.inGrid) (v : Nat)
    (f : Bool) (h : (s.set p v f).1 = true) : WF (s.set p v f).2 := by
  refine ⟨fun q => ?_, ?_, ?_, fun q => ?_⟩
  · rw [slot_set hwf hp v f h]
    by_cases hq : q = p
    · subst hq; simp [hp]
    · by_cases hq2 : q ∈ peerWrites p
      · simp [hq, hq2, ((mem_peerWrites hp q).1 hq2).1]
      · simp only [hq, hq2, if_false]
        exact hwf.keys q
  · rw [set_snd_of_true hwf hp v f h]
    exact hwf.topo
  · rw [set_snd_of_true hwf hp v f h]
    exact Nat.mod_lt _ (by decide)
  · rw [subscript_set hwf hp v f h]
    by_cases hq : q = p
    · subst hq; simp only [if_true]; exact hwf.count_lt q
    · by_cases hq2 : q ∈ peerWrites p
      · simp only [hq, hq2, if_false, if_true]
        exact CellState.remove_option_count_lt _ _ (hwf.count_lt q)
      · simp only [hq, hq2, if_false]
        exact hwf.count_lt q

theorem set_conserved {s : SudokuState} (hwf : WF s)
    (hc : s.free_cells + allPoints.countP (fun p => decide (s.valueAt p ≠ 0)) = 81)
    {p : Point} (hp : p.inGrid) {v : Nat} (hv : 1 ≤ v) (f : Bool)
    (h : (s.set p v f).1 = true) :
    (s.set p v f).2.free_cells + 1 = s.free_cells ∧
    (s.set p v f).2.free_cells +
      allPoints.countP (fun q => decide ((s.set p v f).2.valueAt q ≠ 0)) = 81 := by
  obtain ⟨h1, -⟩ := (set_true_iff s p v f).1 h
  have hcount := countP_flip allPoints_nodup ((mem_allPoints p).2 hp)
    (fun q => decide (s.valueAt q ≠ 0)) (fun q => decide ((s.set p v f).2.valueAt q ≠ 0))
    (fun q _ hq => by simp [valueAt_set hwf hp v f h, hq])
    (by simp [h1]) (by simp [valueAt_set hwf hp v f h]; omega)
  have hle := List.countP_le_length (fun q => decide ((s.set p v f).2.valueAt q ≠ 0))
    (l := allPoints)
  rw [allPoints_length] at hle
  have hfree : (s.set p v f).2.free_cells = (s.free_cells + 255) % 256 := by
    rw [set_snd_of_true hwf hp v f h]
  rw [hfree]
  omega

end SudokuState

namespace SudokuState

theorem set_Inv {s : SudokuState} (hinv : Inv s) {p : Point} (hp : p.inGrid) {v : Nat}
    (hv1 : 1 ≤ v) (hv9 : v ≤ 9) (f : Bool) (h : (s.set p v f).1 = true) :
    Inv (s.set p v f).2 := by
  have hwf := hinv.wf
  obtain ⟨h1, h2⟩ := (set_true_iff s p v f).1 h
  have hval := valueAt_set hwf hp v f h
  have hcand := candidate_set hwf hp v f h
  have hnopeer : ∀ q, isPeer p q → s.valueAt q ≠ v := (hinv.fc p hp v hv1 hv9).1 h2
  refine ⟨set_WF hwf hp v f h, (set_conserved hwf hinv.conserved hp hv1 f h).2,
    fun q => ?_, fun c hc w hw1 hw9 => ?_, fun c hc => ?_, fun a b hab ha => ?_⟩
  · rw [hval]
    split
    · exact hv9
    · exact hinv.values q
  · rw [hcand]
    simp only [hval]
    by_cases hcp : c ∈ peerWrites p
    · have hpc : isPeer p c := (mem_peerWrites hp c).1 hcp
      have hcp2 : isPeer c p := isPeer_symm hp hpc
      simp only [hcp, if_true, Bool.and_eq_true, decide_eq_true_eq]
      rw [hinv.fc c hc w hw1 hw9]
      constructor
      · rintro ⟨hall, hwv⟩ q hq
        split
        · omega
        · exact hall q hq
      · intro hall
        refine ⟨fun q hq => ?_, ?_⟩
        · by_cases hqp : q = p
          · subst hqp; rw [h1]; omega
          · have := hall q hq
            simpa [hqp] using this
        · have := hall p hcp2
          simp only [if_true] at this
          omega
    · simp only [hcp, if_false]
      rw [hinv.fc c hc w hw1 hw9]
      have hnp : ¬ isPeer c p := fun hcp2 => hcp ((mem_peerWrites hp c).2 (isPeer_symm hc hcp2))
      constructor
      · intro hall q hq
        have hqp : q ≠ p := fun e => hnp (e ▸ hq)
        simpa [hqp] using hall q hq
      · intro hall q hq
        have hqp : q ≠ p := fun e => hnp (e ▸ hq)
        simpa [hqp] using hall q hq
  · rw [subscript_set hwf hp v f h]
    by_cases hcp : c = p
    · subst hcp
      have : (s.set c v f).2.candidate c = s.candidate c := by
        funext w; rw [hcand]; simp [not_mem_peerWrites_self hp]
      simp only [if_true, this]
      exact hinv.counts c hc
    · by_cases hcp2 : c ∈ peerWrites p
      · simp only [hcp, hcp2, if_false, if_true, CellState.option_count_remove_option]
        have hfun : (s.set p v f).2.candidate c =
            fun w => (s.candidate c w && decide (w - 1 ≠ v - 1)) := by
          funext w; rw [hcand]; simp [hcp2]
        rw [hfun]
        by_cases hcv : (s.cell_states.subscript c).has_option v = true
        · have hflip := countP_flip (List.nodup_range' 1 9)
            (a := v) (List.mem_range'_1.2 ⟨hv1, by omega⟩)
            (fun w => (s.candidate c w && decide (w - 1 ≠ v - 1))) (s.candidate c)
            (fun w hw hwv => by
              have : 1 ≤ w := (List.mem_range'_1.1 hw).1
              have : w - 1 ≠ v - 1 := by omega
              simp [this])
            (by simp) hcv
          have hcnt := hinv.counts c hc
          have hlt := hwf.count_lt c
          simp only [hcv, if_true]
          omega
        · have hcv2 : s.candidate c v = false := by simpa [candidate] using hcv
          simp only [hcv, if_false]
          rw [hinv.counts c hc]
          apply List.countP_congr
          intro w hw
          by_cases hwv : w = v
          · subst hwv; simp [hcv2]
          · have : 1 ≤ w := (List.mem_range'_1.1 hw).1
            have : w - 1 ≠ v - 1 := by omega
            simp [this]
      · simp only [hcp, hcp2, if_false]
        have : (s.set p v f).2.candidate c = s.candidate c := by
          funext w; rw [hcand]; simp [hcp2]
        rw [this]
        exact hinv.counts c hc
  · rw [hval, hval]
    rw [hval] at ha
    by_cases hap : a = p
    · subst hap
      have hba : b ≠ a := hab.2.1
      simp only [if_true, hba, if_false]
      exact fun e => hnopeer b hab e.symm
    · by_cases hbp : b = p
      · subst hbp
        simp only [hap, if_false, if_true]
        simp only [hap, if_false] at ha
        have hag : a.inGrid := by
          by_contra hag
          have := hwf.slot_none hag
          apply ha
          simp [valueAt, UMap.subscript, this, CellState.get_value]
          rfl
        exact hnopeer a (isPeer_symm hag hab)
      · simp only [hap, hbp, if_false]
        simp only [hap, if_false] at ha
        exact hinv.noclash a b hab ha

end SudokuState

theorem fresh_valueAt (p : Point) : fresh.valueAt p = 0 := by
  unfold SudokuState.valueAt
  rw [fresh_subscript]
  rfl

theorem fresh_candidate (p : Point) {v : Nat} (h1 : 1 ≤ v) (h9 : v ≤ 9) :
    fresh.candidate p v = true := by
  unfold SudokuState.candidate
  rw [fresh_subscript]
  exact SudokuState.default_has_option h1 h9

theorem fresh_WF : WF fresh := by
  refine ⟨fun p => ?_, rfl, ?_, fun p => ?_⟩
  · rw [fresh_cell_slot]
    by_cases hp : p.inGrid <;> simp [hp]
  · rw [fresh_free_cells]; decide
  · rw [fresh_subscript]; decide

theorem fresh_Inv : Inv fresh := by
  refine ⟨fresh_WF, ?_, fun p => ?_, fun p _ v h1 h9 => ?_, fun p _ => ?_, fun p q _ h => ?_⟩
  · rw [fresh_free_cells]
    have : allPoints.countP (fun p => decide (fresh.valueAt p ≠ 0)) = 0 := by
      rw [List.countP_eq_zero]
      intro p _
      simp [fresh_valueAt]
    omega
  · rw [fresh_valueAt]; omega
  · rw [fresh_candidate p h1 h9]
    simp only [true_iff]
    intro q _
    rw [fresh_valueAt]
    omega
  · rw [fresh_subscript]
    have : (List.range' 1 9).countP (fresh.candidate p) = (List.range' 1 9).countP (fun _ => true) := by
      apply List.countP_congr
      intro v hv
      have := List.mem_range'_1.1 hv
      rw [fresh_candidate p this.1 (by omega)]
    rw [this]
    rfl
  · exact absurd (fresh_valueAt p) h

theorem seeded_inv {s : SudokuState} (h : Seeded s) : Inv s ∧ s.undo_stack = [] := by
  induction h with
  | fresh => exact ⟨fresh_Inv, fresh_undo_stack⟩
  | @force s0 p v _ hp h1 h9 ih =>
    by_cases hs : (s0.set p v true).1 = true
    · refine ⟨SudokuState.set_Inv ih.1 hp h1 h9 true hs, ?_⟩
      unfold SudokuState.force
      rw [SudokuState.set_snd_of_true ih.1.wf hp v true hs]
      exact ih.2
    · have hs2 : (s0.set p v true).1 = false := by simpa using hs
      unfold SudokuState.force
      rw [SudokuState.set_snd_of_false_eq _ p h1 h9 true hs2]
      exact ih

theorem inv_iterations {s : SudokuState} (h : Inv s) (k : Nat) :
    Inv { s with iterations := k } :=
  ⟨⟨h.wf.keys, h.wf.topo, h.wf.free_lt, h.wf.count_lt⟩, h.conserved, h.values, h.fc, h.counts,
    h.noclash⟩

theorem SudokuState.unset_iterations {s s2 : SudokuState} (h : s.unset = some s2) (k : Nat) :
    SudokuState.unset { s with iterations := k } = some { s2 with iterations := k } := by
  unfold SudokuState.unset at h ⊢
  cases hst : s.undo_stack with
  | nil => rw [hst] at h; cases h
  | cons op rest =>
    rw [hst] at h
    simp only [Option.some.injEq] at h
    subst h
    simp only [hst]

theorem scan_dead (cells : UMap CellState) (order : List Point) (mc0 : Nat)
    (cell0 : Point × CellState) (h : scan cells order mc0 cell0 = Scan.dead) :
    ∃ q st, cells.slot q = some st ∧ st.value = 0 ∧ st.option_count = 0 := by
  induction order generalizing mc0 cell0 with
  | nil => simp [scan] at h
  | cons p rest ih =>
    unfold scan at h
    cases hs : cells.slot p with
    | none => rw [hs] at h; exact ih _ _ h
    | some st =>
      rw [hs] at h
      simp only [CellState.get_value, CellState.get_option_count] at h
      by_cases hv : st.value = 0
      · by_cases hc : st.option_count = 0
        · exact ⟨p, st, hs, hv, hc⟩
        · simp only [hv, hc, if_true, if_false] at h
          split at h
          · split at h
            · cases h
            · exact ih _ _ h
          · exact ih _ _ h
      · simp only [hv, if_false] at h
        exact ih _ _ h

theorem scan_finished (cells : UMap CellState) (order : List Point) (mc0 : Nat)
    (cell0 : Point × CellState) (mc : Nat) (cell : Point × CellState)
    (h : scan cells order mc0 cell0 = Scan.finished mc cell) :
    (mc < mc0 ∧ cells.slot cell.1 = some cell.2 ∧ cell.2.value = 0) ∨
    (mc = mc0 ∧ cell = cell0 ∧
      ∀ q ∈ order, ∀ st, cells.slot q = some st → st.value = 0 → mc0 ≤ st.option_count) := by
  induction order generalizing mc0 cell0 with
  | nil =>
    simp only [scan, Scan.finished.injEq] at h
    exact Or.inr ⟨h.1.symm, h.2.symm, fun q hq => absurd hq (List.not_mem_nil q)⟩
  | cons p rest ih =>
    unfold scan at h
    cases hs : cells.slot p with
    | none =>
      rw [hs] at h
      rcases ih _ _ h with h1 | ⟨h1, h2, h3⟩
      · exact Or.inl h1
      · refine Or.inr ⟨h1, h2, fun q hq st hq2 hv => ?_⟩
        rcases List.mem_cons.1 hq with e | e
        · subst e; rw [hs] at hq2; cases hq2
        · exact h3 q e st hq2 hv
    | some st =>
      rw [hs] at h
      simp only [CellState.get_value, CellState.get_option_count] at h
      by_cases hv : st.value = 0
      · by_cases hc : st.option_count = 0
        · simp [hv, hc] at h
        · simp only [hv, hc, if_true, if_false] at h
          by_cases hlt : st.option_count > 0 ∧ st.option_count < mc0
          · simp only [hlt, and_self, if_true] at h
            by_cases h1 : st.option_count = 1
            · simp only [h1, if_true, Scan.finished.injEq] at h
              obtain ⟨e1, e2⟩ := h
              subst e1 e2
              exact Or.inl ⟨by omega, hs, hv⟩
            · simp only [h1, if_false] at h
              rcases ih _ _ h with ⟨g1, g2, g3⟩ | ⟨g1, g2, -⟩
              · exact Or.inl ⟨by omega, g2, g3⟩
              · subst g2
                exact Or.inl ⟨by omega, hs, hv⟩
          · simp only [hlt, if_false] at h
            rcases ih _ _ h with h1 | ⟨h1, h2, h3⟩
            · exact Or.inl h1
            · refine Or.inr ⟨h1, h2, fun q hq st2 hq2 hv2 => ?_⟩
              rcases List.mem_cons.1 hq with e | e
              · subst e
                rw [hs] at hq2
                cases hq2
                omega
              · exact h3 q e st2 hq2 hv2
      · simp only [hv, if_false] at h
        rcases ih _ _ h with h1 | ⟨h1, h2, h3⟩
        · exact Or.inl h1
        · refine Or.inr ⟨h1, h2, fun q hq st2 hq2 hv2 => ?_⟩
          rcases List.mem_cons.1 hq with e | e
          · subst e
            rw [hs] at hq2
            cases hq2
            exact absurd hv2 hv
          · exact h3 q e st2 hq2 hv2

/-! ## Valid grids -/

theorem units_table :
    ∀ u ∈ units, u.length = 9 ∧ (u.map fun q => 9 * q.row + q.col).Nodup ∧
      ∀ a ∈ u, a.inGrid ∧ ∀ b ∈ u, a ≠ b → isPeer a b := by
  decide!

theorem rowCells_mem_units {k : Nat} (hk : k < 9) : rowCells k ∈ units := by
  unfold units
  rw [List.mem_flatMap]
  exact ⟨k, List.mem_range.2 hk, by simp⟩

theorem colCells_mem_units {k : Nat} (hk : k < 9) : colCells k ∈ units := by
  unfold units
  rw [List.mem_flatMap]
  exact ⟨k, List.mem_range.2 hk, by simp⟩

theorem blockCells_mem_units {k : Nat} (hk : k < 9) : blockCells k ∈ units := by
  unfold units
  rw [List.mem_flatMap]
  exact ⟨k, List.mem_range.2 hk, by simp⟩

theorem mem_rowCells (p : Point) (hp : p.inGrid) : p ∈ rowCells p.row := by
  unfold rowCells
  rw [List.mem_map]
  exact ⟨p.col, List.mem_range.2 hp.2, rfl⟩

theorem mem_colCells (p : Point) (hp : p.inGrid) : p ∈ colCells p.col := by
  unfold colCells
  rw [List.mem_map]
  exact ⟨p.row, List.mem_range.2 hp.1, rfl⟩

theorem mem_blockCells (p : Point) (hp : p.inGrid) :
    p ∈ blockCells (3 * (p.row / 3) + p.col / 3) := by
  obtain ⟨r, c⟩ := p
  simp only [Point.inGrid] at hp
  unfold blockCells
  simp only [List.mem_flatMap, List.mem_map, List.mem_range, Point.mk.injEq]
  exact ⟨r % 3, by omega, c % 3, by omega, by omega, by omega⟩

theorem exists_unit {p q : Point} (hp : p.inGrid) (h : isPeer p q) :
    ∃ u ∈ units, p ∈ u ∧ q ∈ u := by
  obtain ⟨hq, -, h3⟩ := h
  rcases h3 with h3 | h3 | ⟨h3, h4⟩
  · exact ⟨rowCells p.row, rowCells_mem_units hp.1, mem_rowCells p hp, h3 ▸ mem_rowCells q hq⟩
  · exact ⟨colCells p.col, colCells_mem_units hp.2, mem_colCells p hp, h3 ▸ mem_colCells q hq⟩
  · refine ⟨blockCells (3 * (p.row / 3) + p.col / 3), blockCells_mem_units ?_,
      mem_blockCells p hp, ?_⟩
    · have := hp.1; have := hp.2; omega
    · rw [← h3, ← h4]; exact mem_blockCells q hq

theorem count_range'_digits {d : Nat} (h1 : 1 ≤ d) (h9 : d ≤ 9) :
    (List.range' 1 9).count d = 1 :=
  List.count_eq_one_of_mem (List.nodup_range' 1 9) (List.mem_range'_1.2 ⟨h1, by omega⟩)

theorem onceEach_of_injOn (g : Point → Nat) (u : List Point) (hlen : u.length = 9)
    (hnd : u.Nodup) (hdig : ∀ a ∈ u, 1 ≤ g a ∧ g a ≤ 9)
    (hinj : ∀ a ∈ u, ∀ b ∈ u, a ≠ b → g a ≠ g b) : OnceEach g u := by
  intro d h1 h9
  have hnd2 : (u.map g).Nodup := by
    apply List.Nodup.map_on _ hnd
    intro a ha b hb hab
    by_contra hne
    exact hinj a ha b hb hne hab
  have hsub : u.map g ⊆ List.range' 1 9 := by
    intro x hx
    obtain ⟨a, ha, rfl⟩ := List.mem_map.1 hx
    have := hdig a ha
    exact List.mem_range'_1.2 ⟨this.1, by omega⟩
  have hperm : (u.map g).Perm (List.range' 1 9) :=
    (List.subperm_of_subset hnd2 hsub).perm_of_length_le (by simp [hlen])
  rw [hperm.count_eq]
  exact count_range'_digits h1 h9

theorem injOn_of_onceEach (g : Point → Nat) (u : List Point)
    (hdig : ∀ a ∈ u, 1 ≤ g a ∧ g a ≤ 9) (h : OnceEach g u)
    {a b : Point} (ha : a ∈ u) (hb : b ∈ u) (hab : a ≠ b) : g a ≠ g b := by
  intro e
  have hsub : [a, b] ⊆ u := by
    intro x hx
    simp only [List.mem_cons, List.mem_singleton, List.not_mem_nil, or_false] at hx
    rcases hx with rfl | rfl
    · exact ha
    · exact hb
  have hnd2 : [a, b].Nodup := by simp [hab]
  obtain ⟨l, hl1, hl2⟩ := List.subperm_of_subset hnd2 hsub
  have hc := (hl2.map g).count_le (g a)
  rw [(hl1.map g).count_eq, h (g a) (hdig a ha).1 (hdig a ha).2] at hc
  simp [e] at hc

theorem unit_facts {u : List Point} (hu : u ∈ units) :
    u.length = 9 ∧ u.Nodup ∧ ∀ a ∈ u, a.inGrid ∧ ∀ b ∈ u, a ≠ b → isPeer a b := by
  obtain ⟨h1, h2, h3⟩ := units_table u hu
  exact ⟨h1, List.Nodup.of_map _ h2, h3⟩

theorem ValidGrid.peer_ne {g : Point → Nat} (hg : ValidGrid g) {p q : Point} (hp : p.inGrid)
    (h : isPeer p q) : g p ≠ g q := by
  obtain ⟨u, hu, hpu, hqu⟩ := exists_unit hp h
  obtain ⟨-, -, hall⟩ := unit_facts hu
  exact injOn_of_onceEach g u (fun a ha => hg.1 a (hall a ha).1) (hg.2 u hu) hpu hqu
    (fun e => h.2.1 e.symm)

theorem Inv.valueAt_ne_zero {s : SudokuState} (hinv : Inv s) (h0 : s.free_cells = 0)
    {p : Point} (hp : p.inGrid) : s.valueAt p ≠ 0 := by
  have hc := hinv.conserved
  rw [h0, Nat.zero_add, ← allPoints_length, List.countP_eq_length] at hc
  simpa using hc p ((mem_allPoints p).2 hp)

theorem Inv.validGrid {s : SudokuState} (hinv : Inv s) (h0 : s.free_cells = 0) :
    ValidGrid s.valueAt := by
  refine ⟨fun p hp => ⟨?_, hinv.values p⟩, fun u hu => ?_⟩
  · have := hinv.valueAt_ne_zero h0 hp
    omega
  · obtain ⟨hlen, hnd, hall⟩ := unit_facts hu
    refine onceEach_of_injOn _ u hlen hnd (fun a ha => ⟨?_, hinv.values a⟩) ?_
    · have := hinv.valueAt_ne_zero h0 (hall a ha).1
      omega
    · intro a ha b hb hab
      exact hinv.noclash a b ((hall a ha).2 b hb hab) (hinv.valueAt_ne_zero h0 (hall a ha).1)

theorem completes_candidate {g : Point → Nat} {s : SudokuState} (hinv : Inv s)
    (hg : Completes g s) {p : Point} (hp : p.inGrid) : s.candidate p (g p) = true := by
  have hd := hg.1.1 p hp
  rw [hinv.fc p hp (g p) hd.1 hd.2]
  intro q hq
  by_cases h0 : s.valueAt q = 0
  · rw [h0]; omega
  · rw [← hg.2 q hq.1 h0]
    exact fun e => hg.1.peer_ne hp hq e.symm

theorem completes_set {g : Point → Nat} {s : SudokuState} (hinv : Inv s)
    (hg : Completes g s) {p : Point} (hp : p.inGrid) {v : Nat} (f : Bool)
    (h : (s.set p v f).1 = true) (hv : g p = v) : Completes g (s.set p v f).2 := by
  refine ⟨hg.1, fun q hq hq0 => ?_⟩
  rw [SudokuState.valueAt_set hinv.wf hp v f h] at hq0 ⊢
  by_cases hqp : q = p
  · subst hqp; simp [hv]
  · simp only [hqp, if_false] at hq0 ⊢
    exact hg.2 q hq hq0

/-! ## The search -/

theorem valueLoop_spec (order : List Point) (fuel : Nat)
    (ih : ∀ s : SudokuState, Inv s → s.free_cells < fuel → SolveSpec order (solve order fuel s) s)
    (p : Point) (st : CellState) (hst : st.value = 0) (vs : List Nat)
    (hvs : ∀ v ∈ vs, 1 ≤ v ∧ v ≤ 9) (s : SudokuState) (hinv : Inv s)
    (hfuel : s.free_cells ≤ fuel) (hslot : s.cell_states.slot p = some st) :
    ∃ b s2, valueLoop (solve order fuel) (p, st) vs s = .ok (b, s2) ∧
      (b = false → s2 = { s with iterations := s2.iterations } ∧
        ((∀ q : Point, q.inGrid → q ∈ order) → ∀ g, Completes g s → g p ∉ vs)) ∧
      (b = true → Inv s2 ∧ s2.free_cells = 0 ∧
        ∀ q : Point, s.valueAt q ≠ 0 → s2.valueAt q = s.valueAt q) := by
  have hp : p.inGrid := (hinv.wf.keys p).1 (by rw [hslot]; rfl)
  induction vs generalizing s with
  | nil =>
    exact ⟨false, s, rfl, fun _ => ⟨rfl, fun _ g _ => List.not_mem_nil _⟩,
      fun h => Bool.noConfusion h⟩
  | cons v rest ihv =>
    have hsub : s.cell_states.subscript p = st := by
      simp [UMap.subscript, hslot]
    have hv := hvs v (List.mem_cons_self _ _)
    have hrest : ∀ w ∈ rest, 1 ≤ w ∧ w ≤ 9 := fun w hw => hvs w (List.mem_cons_of_mem _ hw)
    by_cases ho : st.has_option v = true
    · have hset : (s.set p v false).1 = true := by
        rw [SudokuState.set_true_iff]
        simp [SudokuState.valueAt, SudokuState.candidate, hsub, CellState.get_value, hst, ho]
      have hinv1 := SudokuState.set_Inv hinv hp hv.1 hv.2 false hset
      have hfree1 := (SudokuState.set_conserved hinv.wf hinv.conserved hp hv.1 false hset).1
      obtain ⟨b, s2, hr, hfalse, htrue⟩ := ih _ hinv1 (by omega)
      have hval1 := SudokuState.valueAt_set hinv.wf hp v false hset
      cases b with
      | true =>
        refine ⟨true, s2, ?_, fun h => Bool.noConfusion h, fun _ => ?_⟩
        · simp only [valueLoop, ho, if_true, hr]
        · obtain ⟨g1, g2, g3⟩ := htrue rfl
          refine ⟨g1, g2, fun q hq => ?_⟩
          have hqp : q ≠ p := by
            intro e
            subst e
            apply hq
            simp [SudokuState.valueAt, hsub, CellState.get_value, hst]
          have e1 : (s.set p v false).2.valueAt q = s.valueAt q := by
            rw [hval1]; simp [hqp]
          rw [← e1]
          exact g3 q (by rw [e1]; exact hq)
      | false =>
        obtain ⟨g1, g2⟩ := hfalse rfl
        have hun : s2.unset = some { s with iterations := s2.iterations } := by
          rw [g1]
          exact SudokuState.unset_iterations (SudokuState.unset_set hinv.wf hp v hset) _
        obtain ⟨b3, s3, hr3, hfalse3, htrue3⟩ :=
          ihv hrest { s with iterations := s2.iterations } (inv_iterations hinv _) hfuel hslot
        refine ⟨b3, s3, ?_, fun h => ?_, fun h => htrue3 h⟩
        · simp only [valueLoop, ho, if_true, hr, hun]
          exact hr3
        · obtain ⟨k1, k2⟩ := hfalse3 h
          refine ⟨k1, fun hord g hg => ?_⟩
          intro hmem
          rcases List.mem_cons.1 hmem with e | e
          · exact g2 hord g (completes_set hinv hg hp false hset e)
          · exact k2 hord g hg e
    · obtain ⟨b3, s3, hr3, hfalse3, htrue3⟩ := ihv hrest s hinv hfuel hslot
      refine ⟨b3, s3, ?_, fun h => ?_, fun h => htrue3 h⟩
      · simp only [valueLoop, ho]
        exact hr3
      · obtain ⟨k1, k2⟩ := hfalse3 h
        refine ⟨k1, fun hord g hg => ?_⟩
        intro hmem
        rcases List.mem_cons.1 hmem with e | e
        · have := completes_candidate hinv hg hp
          rw [SudokuState.candidate, hsub, e] at this
          exact ho this
        · exact k2 hord g hg e

theorem Inv.exists_free {s : SudokuState} (hinv : Inv s) (h0 : s.free_cells ≠ 0) :
    ∃ q : Point, q.inGrid ∧ s.valueAt q = 0 := by
  by_contra hne
  have hall : allPoints.countP (fun p => decide (s.valueAt p ≠ 0)) = allPoints.length := by
    rw [List.countP_eq_length]
    intro q hq
    have hq2 := (mem_allPoints q).1 hq
    simp only [ne_eq, decide_eq_true_eq]
    exact fun e => hne ⟨q, hq2, e⟩
  have := hinv.conserved
  rw [hall, allPoints_length] at this
  omega

theorem Inv.option_count_le {s : SudokuState} (hinv : Inv s) {p : Point} (hp : p.inGrid) :
    (s.cell_states.subscript p).option_count ≤ 9 := by
  rw [hinv.counts p hp]
  have := List.countP_le_length (s.candidate p) (l := List.range' 1 9)
  simpa using this

theorem Inv.not_candidate_of_count {s : SudokuState} (hinv : Inv s) {p : Point} (hp : p.inGrid)
    (h0 : (s.cell_states.subscript p).option_count = 0) {v : Nat} (h1 : 1 ≤ v) (h9 : v ≤ 9) :
    s.candidate p v = false := by
  have hc := hinv.counts p hp
  rw [h0] at hc
  have := (List.countP_eq_zero.1 hc.symm) v (List.mem_range'_1.2 ⟨h1, by omega⟩)
  simpa using this

theorem solve_spec (order : List Point) (fuel : Nat) (s : SudokuState) (hinv : Inv s)
    (hfuel : s.free_cells < fuel) : SolveSpec order (solve order fuel s) s := by
  induction fuel generalizing s with
  | zero => omega
  | succ n ih =>
    by_cases h0 : s.free_cells = 0
    · refine ⟨true, s, ?_, fun h => Bool.noConfusion h, fun _ => ⟨hinv, h0, fun q _ => rfl⟩⟩
      simp [solve, SudokuState.is_solved, h0]
    · have hsolved : s.is_solved = false := by simp [SudokuState.is_solved, h0]
      cases hscan : scan s.cell_states order 10 (default, default) with
      | dead =>
        refine ⟨false, { s with iterations := (s.iterations + 1) % 2 ^ 32 }, ?_,
          fun _ => ⟨rfl, fun _ g hg => ?_⟩, fun h => Bool.noConfusion h⟩
        · simp only [solve, hsolved, hscan]
          rfl
        · obtain ⟨q, st, hq1, hq2, hq3⟩ := scan_dead _ _ _ _ hscan
          have hq : q.inGrid := (hinv.wf.keys q).1 (by rw [hq1]; rfl)
          have hsub : s.cell_states.subscript q = st := by simp [UMap.subscript, hq1]
          have hd := hg.1.1 q hq
          have h1 := hinv.not_candidate_of_count hq (by rw [hsub]; exact hq3) hd.1 hd.2
          rw [completes_candidate hinv hg hq] at h1
          cases h1
      | finished mc cell =>
        rcases scan_finished _ _ _ _ _ _ hscan with ⟨hlt, hslot, hval⟩ | ⟨he, -, hall⟩
        · have hmc : ¬ mc > 9 := by omega
          obtain ⟨b, s2, hr, hfalse, htrue⟩ :=
            valueLoop_spec order n (fun s3 h3 h4 => ih s3 h3 h4) cell.1 cell.2 hval
              (List.range' 1 9) (fun v hv => by have := List.mem_range'_1.1 hv; omega)
              { s with iterations := (s.iterations + 1) % 2 ^ 32 } (inv_iterations hinv _)
              (by show s.free_cells ≤ n; omega) hslot
          refine ⟨b, s2, ?_, fun h => ?_, fun h => htrue h⟩
          · simp only [solve, hsolved, hscan, hmc]
            exact hr
          · obtain ⟨k1, k2⟩ := hfalse h
            refine ⟨k1, fun hord g hg => ?_⟩
            have hp : cell.1.inGrid := (hinv.wf.keys cell.1).1 (by rw [hslot]; rfl)
            have hd := hg.1.1 cell.1 hp
            exact k2 hord g hg (List.mem_range'_1.2 ⟨hd.1, by omega⟩)
        · have hmc : mc > 9 := by omega
          refine ⟨false, { s with iterations := (s.iterations + 1) % 2 ^ 32 }, ?_,
            fun _ => ⟨rfl, fun hord g _ => ?_⟩, fun h => Bool.noConfusion h⟩
          · simp only [solve, hsolved, hscan, hmc]
            rfl
          · obtain ⟨q, hq, hq0⟩ := hinv.exists_free h0
            have h10 := hall q (hord q hq) _ (hinv.wf.slot hq) hq0
            have := hinv.option_count_le hq
            omega

theorem valueLoop_mono (rec1 rec2 : SudokuState → Except Fault (Bool × SudokuState))
    (hrec : ∀ s r, rec1 s = .ok r → rec2 s = .ok r) (cell : Point × CellState)
    (vs : List Nat) (s : SudokuState) (r : Bool × SudokuState)
    (h : valueLoop rec1 cell vs s = .ok r) : valueLoop rec2 cell vs s = .ok r := by
  induction vs generalizing s with
  | nil => exact h
  | cons v rest ih =>
    unfold valueLoop at h ⊢
    by_cases ho : cell.2.has_option v = true
    · simp only [ho, if_true] at h ⊢
      cases h1 : rec1 (s.set cell.1 v false).2 with
      | error e => rw [h1] at h; cases h
      | ok r1 =>
        rw [h1] at h
        rw [hrec _ _ h1]
        obtain ⟨b, s2⟩ := r1
        cases b with
        | true => exact h
        | false =>
          simp only at h ⊢
          cases hu : s2.unset with
          | none => rw [hu] at h; cases h
          | some s3 =>
            rw [hu] at h
            exact ih s3 h
    · simp only [ho] at h ⊢
      exact ih s h

theorem solve_succ (order : List Point) (n : Nat) (s : SudokuState) (r : Bool × SudokuState)
    (h : solve order n s = .ok r) : solve order (n + 1) s = .ok r := by
  induction n generalizing s r with
  | zero => cases h
  | succ n ih =>
    unfold solve at h ⊢
    by_cases hs : s.is_solved = true
    · simp only [hs, if_true] at h ⊢
      exact h
    · simp only [hs] at h ⊢
      cases hscan : scan s.cell_states order 10 (default, default) with
      | dead => simp only [hscan] at h ⊢; exact h
      | finished mc cell =>
        simp only [hscan] at h ⊢
        by_cases hmc : mc > 9
        · simp only [hmc, if_true] at h ⊢
          exact h
        · simp only [hmc, if_false] at h ⊢
          exact valueLoop_mono _ _ (fun s2 r2 h2 => ih s2 r2 h2) _ _ _ _ h

theorem solve_mono (order : List Point) (n k : Nat) (s : SudokuState) (r : Bool × SudokuState)
    (h : solve order n s = .ok r) : solve order (n + k) s = .ok r := by
  induction k with
  | zero => exact h
  | succ k ih => exact solve_succ order (n + k) s r ih

theorem solve_spec_of_ok (order : List Point) (fuel : Nat) (s : SudokuState) (hinv : Inv s)
    (b : Bool) (s2 : SudokuState) (h : solve order fuel s = .ok (b, s2)) :
    (b = false → s2 = { s with iterations := s2.iterations } ∧
      ((∀ q : Point, q.inGrid → q ∈ order) → ∀ g, ¬ Completes g s)) ∧
    (b = true → Inv s2 ∧ s2.free_cells = 0 ∧
      ∀ q : Point, s.valueAt q ≠ 0 → s2.valueAt q = s.valueAt q) := by
  have h2 := solve_mono order fuel 256 s _ h
  obtain ⟨b3, s3, h3, hspec⟩ :=
    solve_spec order (fuel + 256) s hinv (by have := hinv.wf.free_lt; omega)
  rw [h2] at h3
  simp only [Except.ok.injEq, Prod.mk.injEq] at h3
  obtain ⟨e1, e2⟩ := h3
  subst e1 e2
  exact hspec

/-! ## Reachable states -/

theorem fresh_ReachInv : ReachInv fresh :=
  ⟨fresh_WF, fresh_Inv.conserved, by rw [fresh_undo_stack]; exact List.nodup_nil,
    fun op hop => by rw [fresh_undo_stack] at hop; cases hop⟩

theorem reachInv_set {s : SudokuState} (hr : ReachInv s) {p : Point} (hp : p.inGrid) {v : Nat}
    (h1 : 1 ≤ v) (h9 : v ≤ 9) (f : Bool) : ReachInv (s.set p v f).2 := by
  by_cases h : (s.set p v f).1 = true
  · have hwf := hr.wf
    obtain ⟨hv0, -⟩ := (SudokuState.set_true_iff s p v f).1 h
    have hval := SudokuState.valueAt_set hwf hp v f h
    have hkeep : ∀ op ∈ s.undo_stack, op.set.inGrid ∧ (s.set p v f).2.valueAt op.set ≠ 0 ∧
        op.forbids.Nodup ∧ ∀ q ∈ op.forbids, q.inGrid := by
      intro op hop
      obtain ⟨g1, g2, g3, g4⟩ := hr.entries op hop
      refine ⟨g1, ?_, g3, g4⟩
      rw [hval]
      split
      · omega
      · exact g2
    have hstack : (s.set p v f).2.undo_stack =
        if f then s.undo_stack
        else { forbids := (peerWrites p).filter fun q => s.candidate q v, set := p, value := v }
          :: s.undo_stack := by
      rw [SudokuState.set_snd_of_true hwf hp v f h]
    refine ⟨SudokuState.set_WF hwf hp v f h,
      (SudokuState.set_conserved hwf hr.conserved hp h1 f h).2, ?_, ?_⟩
    · rw [hstack]
      cases f with
      | true => exact hr.stack_nodup
      | false =>
        simp only [Bool.false_eq_true, if_false, List.map_cons, List.nodup_cons]
        refine ⟨fun hmem => ?_, hr.stack_nodup⟩
        obtain ⟨op, hop, e⟩ := List.mem_map.1 hmem
        have := (hr.entries op hop).2.1
        rw [e] at this
        exact this hv0
    · rw [hstack]
      cases f with
      | true => exact hkeep
      | false =>
        simp only [Bool.false_eq_true, if_false, List.mem_cons]
        rintro op (rfl | hop)
        · refine ⟨hp, ?_, (peerWrites_nodup hp).filter _, fun q hq => ?_⟩
          · rw [hval]; simp only [if_true]; omega
          · exact ((mem_peerWrites hp q).1 (List.mem_filter.1 hq).1).1
        · exact hkeep op hop
  · have h2 : (s.set p v f).1 = false := by simpa using h
    rw [SudokuState.set_snd_of_false_eq s p h1 h9 f h2]
    exact hr

theorem reachInv_unset {s s2 : SudokuState} (hr : ReachInv s) (h : s.unset = some s2) :
    ReachInv s2 := by
  have hwf := hr.wf
  cases hst : s.undo_stack with
  | nil => simp [SudokuState.unset, hst] at h
  | cons op rest =>
    rw [SudokuState.unset_eq hst] at h
    simp only [Option.some.injEq] at h
    obtain ⟨g1, g2, g3, g4⟩ := hr.entries op (by rw [hst]; exact List.mem_cons_self _ _)
    have hnd := hr.stack_nodup
    rw [hst, List.map_cons, List.nodup_cons] at hnd
    have hslot : ∀ q, s2.cell_states.slot q =
        if q = op.set then some (((op.forbids.foldl
            (fun m q => m.store q ((m.subscript q).add_option op.value))
            s.cell_states).subscript op.set).set_value 0)
        else if q ∈ op.forbids then some ((s.cell_states.subscript q).add_option op.value)
        else s.cell_states.slot q := by
      intro q
      rw [← h]
      simp only [UMap.slot_store, SudokuState.addLoop_slot _ _ g3]
    have hsub : ∀ q, s2.cell_states.subscript q =
        if q = op.set then ((op.forbids.foldl
            (fun m q => m.store q ((m.subscript q).add_option op.value))
            s.cell_states).subscript op.set).set_value 0
        else if q ∈ op.forbids then (s.cell_states.subscript q).add_option op.value
        else s.cell_states.subscript q := by
      intro q
      have e : ∀ m : UMap CellState, m.subscript q = (m.slot q).getD default := fun _ => rfl
      rw [e, hslot]
      by_cases hq : q = op.set
      · simp [hq]
      · by_cases hq2 : q ∈ op.forbids <;> simp [hq, hq2, e]
    have hval : ∀ q, s2.valueAt q = if q = op.set then 0 else s.valueAt q := by
      intro q
      unfold SudokuState.valueAt
      rw [hsub]
      by_cases hq : q = op.set
      · simp [hq, CellState.set_value, CellState.get_value]
      · by_cases hq2 : q ∈ op.forbids <;>
          simp [hq, hq2, CellState.get_value, CellState.add_option_value]
    have hfree : s2.free_cells = (s.free_cells + 1) % 256 := by rw [← h]
    have hstack : s2.undo_stack = rest := by rw [← h]
    have htopo : s2.constraint_map = s.constraint_map := by rw [← h]
    have hcount := countP_flip allPoints_nodup ((mem_allPoints op.set).2 g1)
      (fun q => decide (s2.valueAt q ≠ 0)) (fun q => decide (s.valueAt q ≠ 0))
      (fun q _ hq => by simp [hval, hq]) (by simp [hval]) (by simpa using g2)
    have hcons := hr.conserved
    refine ⟨⟨fun q => ?_, htopo.trans hwf.topo, ?_, fun q => ?_⟩, ?_, ?_, ?_⟩
    · rw [hslot]
      by_cases hq : q = op.set
      · subst hq; simp [g1]
      · by_cases hq2 : q ∈ op.forbids
        · simp [hq, hq2, g4 q hq2]
        · simp only [hq, hq2, if_false]
          exact hwf.keys q
    · rw [hfree]; exact Nat.mod_lt _ (by decide)
    · rw [hsub]
      by_cases hq : q = op.set
      · subst hq
        simp only [if_true, CellState.set_value]
        rw [SudokuState.addLoop_subscript _ _ g3]
        split
        · exact CellState.add_option_count_lt _ _ (hwf.count_lt _)
        · exact hwf.count_lt _
      · by_cases hq2 : q ∈ op.forbids
        · simp only [hq, hq2, if_false, if_true]
          exact CellState.add_option_count_lt _ _ (hwf.count_lt _)
        · simp only [hq, hq2, if_false]
          exact hwf.count_lt _
    · rw [hfree]
      omega
    · rw [hstack]; exact hnd.2
    · rw [hstack]
      intro op2 hop2
      obtain ⟨k1, k2, k3, k4⟩ := hr.entries op2 (by rw [hst]; exact List.mem_cons_of_mem _ hop2)
      refine ⟨k1, ?_, k3, k4⟩
      have hne : op2.set ≠ op.set := by
        intro e
        exact hnd.1 (List.mem_map.2 ⟨op2, hop2, e⟩)
      rw [hval]
      simp only [hne, if_false]
      exact k2

theorem reachable_inv {s : SudokuState} (h : Reachable s) : ReachInv s := by
  induction h with
  | fresh => exact fresh_ReachInv
  | set p v f _ hp h1 h9 ih => exact reachInv_set ih hp h1 h9 f
  | unset _ hu ih => exact reachInv_unset ih hu

theorem seeded_reachable {s : SudokuState} (h : Seeded s) : Reachable s := by
  induction h with
  | fresh => exact Reachable.fresh
  | force p v _ hp h1 h9 ih => exact Reachable.set p v true ih hp h1 h9

/-! ## Concrete grids -/

theorem seed_seeded (s : SudokuState) (hs : Seeded s) (clues : List (Point × Nat))
    (h : ∀ c ∈ clues, c.1.inGrid ∧ 1 ≤ c.2 ∧ c.2 ≤ 9) : Seeded (seed s clues) := by
  induction clues generalizing s with
  | nil => exact hs
  | cons c rest ih =>
    have hc := h c (List.mem_cons_self _ _)
    exact ih _ (Seeded.force c.1 c.2 hs hc.1 hc.2.1 hc.2.2)
      (fun d hd => h d (List.mem_cons_of_mem _ hd))

theorem blockedGrid_seeded : Seeded blockedGrid :=
  seed_seeded fresh Seeded.fresh _ (by decide)

set_option maxRecDepth 100000 in
theorem blockedGrid_solve :
    solve allPoints 1 blockedGrid = .ok (false, { blockedGrid with iterations := 1 }) := rfl

theorem shiftedGrid_units :
    ∀ u ∈ units, ∀ d ∈ List.range' 1 9, (u.map shiftedGrid).count d = 1 := by
  decide

theorem shiftedGrid_valid : ValidGrid shiftedGrid := by
  refine ⟨fun p _ => ?_, fun u hu d h1 h9 => ?_⟩
  · unfold shiftedGrid; omega
  · exact shiftedGrid_units u hu d (List.mem_range'_1.2 ⟨h1, by omega⟩)

theorem shiftedGrid_completes_fresh : Completes shiftedGrid fresh :=
  ⟨shiftedGrid_valid, fun p _ h => absurd (fresh_valueAt p) h⟩

/-! ## The claims -/

/-- **C1** (solved puzzle validity).  For every state obtained from a fresh
`SudokuState` by `force` calls on cells of the grid with digits 1..9, whatever
the iteration order of `cell_states` and the recursion budget: if `solve`
returns true, then in the state it leaves every cell of the grid holds a digit
1..9 and every row, every column and every 3x3 block holds each digit 1..9
exactly once. -/
theorem solve_true_valid (order : List Point) (fuel : Nat) (s s2 : SudokuState)
    (hs : Seeded s) (h : solve order fuel s = .ok (true, s2)) :
    (∀ p : Point, p.inGrid → 1 ≤ s2.valueAt p ∧ s2.valueAt p ≤ 9) ∧
    ∀ k < 9, OnceEach s2.valueAt (rowCells k) ∧ OnceEach s2.valueAt (colCells k) ∧
      OnceEach s2.valueAt (blockCells k) := by
  obtain ⟨hinv, h0, -⟩ := (solve_spec_of_ok order fuel s (seeded_inv hs).1 true s2 h).2 rfl
  have hv := hinv.validGrid h0
  exact ⟨hv.1, fun k hk => ⟨hv.2 _ (rowCells_mem_units hk), hv.2 _ (colCells_mem_units hk),
    hv.2 _ (blockCells_mem_units hk)⟩⟩

theorem solve_true_valid_witness :
    ∃ s2 : SudokuState, solve allPoints 82 fresh = .ok (true, s2) ∧
      ((∀ p : Point, p.inGrid → 1 ≤ s2.valueAt p ∧ s2.valueAt p ≤ 9) ∧
      ∀ k < 9, OnceEach s2.valueAt (rowCells k) ∧ OnceEach s2.valueAt (colCells k) ∧
        OnceEach s2.valueAt (blockCells k)) := by
  obtain ⟨b, s2, h, hfalse, -⟩ := solve_spec allPoints 82 fresh fresh_Inv (by decide)
  cases b with
  | false =>
    exact absurd shiftedGrid_completes_fresh
      ((hfalse rfl).2 (fun q hq => (mem_allPoints q).2 hq) shiftedGrid)
  | true => exact ⟨s2, h, solve_true_valid allPoints 82 fresh s2 Seeded.fresh h⟩

/-- **C2** (the search is exhaustive).  For every state `s` obtained from a fresh
`SudokuState` by `force` calls and every iteration order that lists the 81 cells:
if some full valid grid `g` agrees with every assigned cell of `s`, then `solve`
with a recursion budget above `free_cells` returns true, the grid it leaves is a
valid completion of `s`, and when the completion of `s` is unique it is `g`;
and `solve` returns false with no budget at all, so a false result means that
no valid completion exists. -/
theorem solve_exhaustive (order : List Point) (hord : order.Perm allPoints) (fuel : Nat)
    (s : SudokuState) (hs : Seeded s) (hfuel : s.free_cells < fuel) (g : Point → Nat)
    (hg : Completes g s) :
    (∃ s2 : SudokuState, solve order fuel s = .ok (true, s2) ∧ Completes s2.valueAt s ∧
      ((∀ g2, Completes g2 s → ∀ p : Point, p.inGrid → g2 p = g p) →
        ∀ p : Point, p.inGrid → s2.valueAt p = g p)) ∧
    ∀ (fuel2 : Nat) (s3 : SudokuState), solve order fuel2 s ≠ .ok (false, s3) := by
  have hmem : ∀ q : Point, q.inGrid → q ∈ order :=
    fun q hq => hord.symm.subset ((mem_allPoints q).2 hq)
  constructor
  · obtain ⟨b, s2, h, hfalse, htrue⟩ := solve_spec order fuel s (seeded_inv hs).1 hfuel
    cases b with
    | false => exact absurd hg ((hfalse rfl).2 hmem g)
    | true =>
      obtain ⟨hinv, h0, hkeep⟩ := htrue rfl
      have hc : Completes s2.valueAt s := ⟨hinv.validGrid h0, fun p _ hp0 => hkeep p hp0⟩
      exact ⟨s2, h, hc, fun huniq p hp => huniq _ hc p hp⟩
  · intro fuel2 s3 h
    exact ((solve_spec_of_ok order fuel2 s (seeded_inv hs).1 false s3 h).1 rfl).2 hmem g hg

theorem solve_exhaustive_witness :
    (∃ s2 : SudokuState, solve allPoints 82 fresh = .ok (true, s2) ∧
      Completes s2.valueAt fresh ∧
      ((∀ g2, Completes g2 fresh → ∀ p : Point, p.inGrid → g2 p = shiftedGrid p) →
        ∀ p : Point, p.inGrid → s2.valueAt p = shiftedGrid p)) ∧
    ∀ (fuel2 : Nat) (s3 : SudokuState), solve allPoints fuel2 fresh ≠ .ok (false, s3) :=
  solve_exhaustive allPoints (List.Perm.refl _) 82 fresh Seeded.fresh (by decide) shiftedGrid
    shiftedGrid_completes_fresh

/-- **C3** (round trip of `set` and `unset`).  For every state `s` with the layout
of the class (`WF`: the 81 cells of the grid as keys of `cell_states`, the
constraint map of the constructor, `uint8_t` members within their type),
whatever its `iterations`, its undo stack and the contents of its cells: for
every cell `p` of the grid and digit `v` in 1..9 such that `set(p, v)` returns
true, `unset()` right after it succeeds and yields exactly `s`: every
`CellState` (value, candidate set, option count), `free_cells`, the undo stack,
and the other members too. -/
theorem unset_after_set_restores (s : SudokuState) (hs : WF s) (p : Point)
    (hp : p.inGrid) (v : Nat) (_h1 : 1 ≤ v) (_h9 : v ≤ 9)
    (h : (s.set p v false).1 = true) : (s.set p v false).2.unset = some s :=
  SudokuState.unset_set hs hp v h

theorem unset_after_set_restores_witness :
    counted.iterations = 1 ∧ (counted.set ⟨0, 0⟩ 5 false).1 = true ∧
      (counted.set ⟨0, 0⟩ 5 false).2.unset = some counted :=
  ⟨rfl, by decide, unset_after_set_restores counted (inv_iterations fresh_Inv 1).wf ⟨0, 0⟩
    (by decide) 5 (by decide) (by decide) (by decide)⟩

/-- **C4** (a failed search undoes its assignments).  For every state obtained from
a fresh `SudokuState` by `force` calls: when `solve` returns false, the state it
leaves has the cell states (values, candidate sets, option counts), `free_cells`,
the undo stack and the constraint map of the state before the call; only
`iterations` may differ. -/
theorem solve_false_restores (order : List Point) (fuel : Nat) (s s2 : SudokuState)
    (hs : Seeded s) (h : solve order fuel s = .ok (false, s2)) :
    s2.cell_states = s.cell_states ∧ s2.free_cells = s.free_cells ∧
      s2.undo_stack = s.undo_stack ∧ s2.constraint_map = s.constraint_map := by
  obtain ⟨he, -⟩ := (solve_spec_of_ok order fuel s (seeded_inv hs).1 false s2 h).1 rfl
  rw [he]
  exact ⟨rfl, rfl, rfl, rfl⟩

theorem solve_false_restores_witness :
    solve allPoints 1 blockedGrid = .ok (false, { blockedGrid with iterations := 1 }) ∧
      ({ blockedGrid with iterations := 1 } : SudokuState).cell_states = blockedGrid.cell_states ∧
      ({ blockedGrid with iterations := 1 } : SudokuState).free_cells = blockedGrid.free_cells ∧
      ({ blockedGrid with iterations := 1 } : SudokuState).undo_stack = blockedGrid.undo_stack ∧
      ({ blockedGrid with iterations := 1 } : SudokuState).constraint_map =
        blockedGrid.constraint_map :=
  ⟨blockedGrid_solve,
    solve_false_restores allPoints 1 blockedGrid _ blockedGrid_seeded blockedGrid_solve⟩

/-- **C5** (the peer list is exact).  For every cell `p` of the grid there is one
list `ps` such that `generate_constraint_map(p)`, run on any state that has no
entry for `p` yet, completes and maps `p` to `ps`, such that the constructor
completes with a state that maps `p` to `ps`, and such that a point `q` is in `ps`
exactly when `q` is another cell of the grid in the row, the column or the 3x3
block of `p`. -/
theorem constraint_list_exact (p : Point) (hp : p.inGrid) :
    ∃ ps : List Point,
      (∀ s : SudokuState, s.constraint_map.contains p = false →
        ∃ s2, s.generate_constraint_map p = some s2 ∧ s2.constraint_map.slot p = some ps) ∧
      (∃ s0, SudokuState.init = some s0 ∧ s0.constraint_map.slot p = some ps) ∧
      ∀ q : Point, q ∈ ps ↔ isPeer p q := by
  refine ⟨peerWrites p, fun s hs => ?_, ⟨fresh, init_eq_some_fresh, ?_⟩, mem_peerWrites hp⟩
  · refine ⟨{ s with constraint_map := s.constraint_map.emplace p (peerWrites p) }, ?_, ?_⟩
    · simp [SudokuState.generate_constraint_map, hs, peerVector_eq hp]
    · have hn : s.constraint_map.slot p = none := by
        simpa [UMap.contains] using hs
      simp [UMap.slot_emplace, hn]
  · rw [fresh_constraint_slot]
    simp [hp]

theorem constraint_list_exact_witness :
    (Point.mk 4 4).inGrid ∧ ∃ ps : List Point,
      (∀ s : SudokuState, s.constraint_map.contains ⟨4, 4⟩ = false →
        ∃ s2, s.generate_constraint_map ⟨4, 4⟩ = some s2 ∧
          s2.constraint_map.slot ⟨4, 4⟩ = some ps) ∧
      (∃ s0, SudokuState.init = some s0 ∧ s0.constraint_map.slot ⟨4, 4⟩ = some ps) ∧
      ∀ q : Point, q ∈ ps ↔ isPeer ⟨4, 4⟩ q :=
  ⟨by decide, constraint_list_exact ⟨4, 4⟩ (by decide)⟩

/-- **C6** (twenty distinct peers).  For every cell `p` of the grid the body of
`generate_constraint_map(p)` completes without a write outside the 20-slot
vector and ends with the write index at 20; the vector, which is what the
constructor stores for `p`, has 20 pairwise distinct entries, none of them `p`. -/
theorem constraint_list_twenty (p : Point) (hp : p.inGrid) :
    ∃ ps : List Point, peerVector p = some (ps, 20) ∧
      (∃ s0, SudokuState.init = some s0 ∧ s0.constraint_map.slot p = some ps) ∧
      ps.length = 20 ∧ ps.Nodup ∧ p ∉ ps := by
  refine ⟨peerWrites p, peerVector_eq hp, ⟨fresh, init_eq_some_fresh, ?_⟩,
    peerWrites_length hp, peerWrites_nodup hp, not_mem_peerWrites_self hp⟩
  rw [fresh_constraint_slot]
  simp [hp]

theorem constraint_list_twenty_witness :
    (Point.mk 0 8).inGrid ∧ ∃ ps : List Point, peerVector ⟨0, 8⟩ = some (ps, 20) ∧
      (∃ s0, SudokuState.init = some s0 ∧ s0.constraint_map.slot ⟨0, 8⟩ = some ps) ∧
      ps.length = 20 ∧ ps.Nodup ∧ (Point.mk 0 8) ∉ ps :=
  ⟨by decide, constraint_list_twenty ⟨0, 8⟩ (by decide)⟩

/-- **C7** (the peer relation is symmetric).  The constructor completes, and in
the constraint map it builds `b` occurs in the list of `a` if and only if `a`
occurs in the list of `b`, for all points `a` and `b` (a point outside the grid
has no list and is in none). -/
theorem constraint_map_symmetric :
    ∃ s0, SudokuState.init = some s0 ∧
      ∀ a b : Point, b ∈ s0.constraint_map.subscript a ↔ a ∈ s0.constraint_map.subscript b := by
  have key : ∀ x y : Point, y ∈ fresh.constraint_map.subscript x →
      x ∈ fresh.constraint_map.subscript y := by
    intro x y h
    by_cases hx : x.inGrid
    · rw [fresh_peers hx] at h
      have hxy := (mem_peerWrites hx y).1 h
      rw [fresh_peers hxy.1]
      exact (mem_peerWrites hxy.1 x).2 (isPeer_symm hx hxy)
    · have : fresh.constraint_map.subscript x = [] := by
        simp [UMap.subscript, fresh_constraint_slot, hx]
        rfl
      rw [this] at h
      cases h
  exact ⟨fresh, init_eq_some_fresh, fun a b => ⟨key a b, key b a⟩⟩

/-- **C8** (when an assignment is rejected).  For every state with the layout
of the class (`WF`) in which `free_cells` counts the cells of the grid whose
value is 0 (`free_cells` plus the number of assigned cells is 81), whatever its
`iterations` and its undo stack: for every cell `p` of the grid and digit `v` in
1..9, `set(p, v, force)` with either value of the flag (`force(p, v)` is
`set(p, v, true)`) returns false if and only if `p` holds a non-zero value or
`v` is not a candidate of `p`; when it returns true, the value of `p` is `v`
afterwards and `free_cells` has gone down by exactly 1. -/
theorem set_result (s : SudokuState) (hs : WF s)
    (hc : s.free_cells + allPoints.countP (fun p => decide (s.valueAt p ≠ 0)) = 81)
    (p : Point) (hp : p.inGrid) (v : Nat) (h1 : 1 ≤ v) (_h9 : v ≤ 9) (f : Bool) :
    ((s.set p v f).1 = false ↔ (s.valueAt p ≠ 0 ∨ s.candidate p v = false)) ∧
    ((s.set p v f).1 = true →
      (s.set p v f).2.valueAt p = v ∧ (s.set p v f).2.free_cells + 1 = s.free_cells) := by
  constructor
  · rw [SudokuState.set_fst]
    by_cases h0 : s.valueAt p = 0 <;> simp [h0]
  · intro h
    refine ⟨?_, (SudokuState.set_conserved hs hc hp h1 f h).1⟩
    rw [SudokuState.valueAt_set hs hp v f h]
    simp

theorem set_result_witness :
    (((counted.set ⟨0, 0⟩ 5 false).1 = false ↔
        (counted.valueAt ⟨0, 0⟩ ≠ 0 ∨ counted.candidate ⟨0, 0⟩ 5 = false)) ∧
      ((counted.set ⟨0, 0⟩ 5 false).1 = true →
        (counted.set ⟨0, 0⟩ 5 false).2.valueAt ⟨0, 0⟩ = 5 ∧
          (counted.set ⟨0, 0⟩ 5 false).2.free_cells + 1 = counted.free_cells)) ∧
    (counted.set ⟨0, 0⟩ 5 false).1 = true ∧ counted.iterations = 1 :=
  ⟨set_result counted (inv_iterations fresh_Inv 1).wf (inv_iterations fresh_Inv 1).conserved
    ⟨0, 0⟩ (by decide) 5 (by decide) (by decide) false, by decide, rfl⟩

/-- **C9** (a rejected assignment is a no-op).  For every state, point `p` and
digit `v` in 1..9: if `set(p, v, force)` returns false, with either value of the
flag (`force(p, v)` is `set(p, v, true)`), the state after the call is the state
before it: no cell changes, `free_cells` and the undo stack stay as they were. -/
theorem set_rejected_noop (s : SudokuState) (p : Point) (v : Nat) (h1 : 1 ≤ v) (h9 : v ≤ 9)
    (f : Bool) (h : (s.set p v f).1 = false) : (s.set p v f).2 = s :=
  SudokuState.set_snd_of_false_eq s p h1 h9 f h

theorem set_rejected_noop_witness :
    ((fresh.force ⟨0, 0⟩ 5).2.set ⟨0, 1⟩ 5 true).1 = false ∧
      ((fresh.force ⟨0, 0⟩ 5).2.set ⟨0, 1⟩ 5 true).2 = (fresh.force ⟨0, 0⟩ 5).2 :=
  ⟨by decide, set_rejected_noop (fresh.force ⟨0, 0⟩ 5).2 ⟨0, 1⟩ 5 (by decide) (by decide) true
    (by decide)⟩

/-- **C10** (a forced value is refused to every peer).  For every state with the
layout of the class (`WF`), whatever its `iterations`, its undo stack and the
contents of its cells: for every cell `p` of the grid, peer `q` of `p` and digit
`v` in 1..9, if `force(p, v)` returns true, then `v` is no candidate of `q`
afterwards and `force(q, v)` right after it returns false. -/
theorem force_peer_rejected (s : SudokuState) (hs : WF s) (p q : Point) (hp : p.inGrid)
    (hq : isPeer p q) (v : Nat) (_h1 : 1 ≤ v) (_h9 : v ≤ 9) (h : (s.force p v).1 = true) :
    (s.force p v).2.candidate q v = false ∧ ((s.force p v).2.force q v).1 = false := by
  have hc : (s.force p v).2.candidate q v = false := by
    unfold SudokuState.force at h ⊢
    rw [SudokuState.candidate_set hs hp v true h]
    simp [(mem_peerWrites hp q).2 hq]
  refine ⟨hc, ?_⟩
  show ((s.force p v).2.set q v true).1 = false
  rw [SudokuState.set_fst, hc]
  simp

theorem force_peer_rejected_witness :
    counted.iterations = 1 ∧ (counted.force ⟨0, 0⟩ 5).1 = true ∧
      ((counted.force ⟨0, 0⟩ 5).2.candidate ⟨0, 1⟩ 5 = false ∧
        ((counted.force ⟨0, 0⟩ 5).2.force ⟨0, 1⟩ 5).1 = false) :=
  ⟨rfl, by decide, force_peer_rejected counted (inv_iterations fresh_Inv 1).wf ⟨0, 0⟩ ⟨0, 1⟩
    (by decide) (by decide) 5 (by decide) (by decide) (by decide)⟩

/-! ## Cells, the ledger, the reader and the run of the search -/

theorem Bits.raise_of_test (b i : Nat) (h : Bits.test b i = true) : Bits.raise b i = b := by
  apply Nat.eq_of_testBit_eq
  intro j
  have h1 := Bits.test_raise b i j
  unfold Bits.test at h1 h
  rw [h1]
  by_cases e : j = i
  · subst e; simp [h]
  · simp [e]

theorem Bits.reset_lt (b i : Nat) (h : b < 2 ^ 9) : Bits.reset b i < 2 ^ 9 := by
  unfold Bits.reset
  exact Nat.xor_lt_two_pow h (Nat.lt_of_le_of_lt Nat.and_le_left h)

theorem Bits.raise_lt (b i : Nat) (h : b < 2 ^ 9) (hi : i < 9) : Bits.raise b i < 2 ^ 9 := by
  unfold Bits.raise
  apply Nat.or_lt_two_pow h
  rw [Nat.one_shiftLeft]
  exact Nat.pow_lt_pow_right (by decide) hi

theorem Bits.eq_zero_iff (b : Nat) (h : b < 2 ^ 9) :
    b = 0 ↔ ∀ i < 9, Bits.test b i = false := by
  constructor
  · rintro rfl i _
    simp [Bits.test]
  · intro hall
    apply Nat.eq_of_testBit_eq
    intro j
    rw [Nat.zero_testBit]
    by_cases hj : j < 9
    · exact hall j hj
    · apply Nat.testBit_lt_two_pow
      calc b < 2 ^ 9 := h
        _ ≤ 2 ^ j := Nat.pow_le_pow_right (by decide) (by omega)

theorem CellState.has_option_add_option (c : CellState) (v w : Nat) :
    (c.add_option v).has_option w = (c.has_option w || decide (w - 1 = v - 1)) := by
  unfold CellState.add_option CellState.has_option
  split <;> simp [Bits.test_raise]

theorem CellState.add_option_of_has (c : CellState) (v : Nat) (h : c.has_option v = true) :
    c.add_option v = c := by
  unfold CellState.has_option at h
  unfold CellState.add_option
  simp [h, Bits.raise_of_test]

theorem CellState.option_count_add_option (c : CellState) (v : Nat) :
    (c.add_option v).option_count =
      if c.has_option v then c.option_count else (c.option_count + 1) % 256 := by
  unfold CellState.add_option CellState.has_option
  cases h : Bits.test c.option_state (v - 1) <;> simp

theorem cellReach_inv {c : CellState} (h : CellReach c) :
    c.option_count = c.optionsLeft ∧ c.option_state < 2 ^ 9 := by
  induction h with
  | init => exact ⟨rfl, by decide⟩
  | @remove c v _ h1 h9 ih =>
    refine ⟨?_, ?_⟩
    · rw [CellState.option_count_remove_option]
      unfold CellState.optionsLeft
      have hfun : (c.remove_option v).2.has_option =
          fun w => (c.has_option w && decide (w - 1 ≠ v - 1)) := by
        funext w; exact CellState.has_option_remove_option c v w
      rw [hfun]
      by_cases hcv : c.has_option v = true
      · have hflip := countP_flip (List.nodup_range' 1 9)
          (a := v) (List.mem_range'_1.2 ⟨h1, by omega⟩)
          (fun w => (c.has_option w && decide (w - 1 ≠ v - 1))) c.has_option
          (fun w hw hwv => by
            have : 1 ≤ w := (List.mem_range'_1.1 hw).1
            have : w - 1 ≠ v - 1 := by omega
            simp [this])
          (by simp) hcv
        have hle := List.countP_le_length c.has_option (l := List.range' 1 9)
        have h0 := ih.1
        unfold CellState.optionsLeft at h0
        simp only [List.length_range'] at hle
        simp only [hcv, if_true]
        omega
      · have hcv2 : c.has_option v = false := by simpa using hcv
        simp only [hcv, if_false]
        rw [ih.1]
        unfold CellState.optionsLeft
        apply List.countP_congr
        intro w hw
        by_cases hwv : w = v
        · subst hwv; simp [hcv2]
        · have : 1 ≤ w := (List.mem_range'_1.1 hw).1
          have : w - 1 ≠ v - 1 := by omega
          simp [this]
    · unfold CellState.remove_option
      split <;> exact Bits.reset_lt _ _ ih.2
  | @add c v _ h1 h9 ih =>
    refine ⟨?_, ?_⟩
    · by_cases hcv : c.has_option v = true
      · rw [CellState.add_option_of_has c v hcv]; exact ih.1
      · have hcv2 : c.has_option v = false := by simpa using hcv
        rw [CellState.option_count_add_option]
        unfold CellState.optionsLeft
        have hfun : (c.add_option v).has_option =
            fun w => (c.has_option w || decide (w - 1 = v - 1)) := by
          funext w; exact CellState.has_option_add_option c v w
        rw [hfun]
        have hflip := countP_flip (List.nodup_range' 1 9)
          (a := v) (List.mem_range'_1.2 ⟨h1, by omega⟩)
          c.has_option (fun w => (c.has_option w || decide (w - 1 = v - 1)))
          (fun w hw hwv => by
            have : 1 ≤ w := (List.mem_range'_1.1 hw).1
            have : ¬ w - 1 = v - 1 := by omega
            simp [this])
          hcv2 (by simp)
        have hle := List.countP_le_length
          (fun w => (c.has_option w || decide (w - 1 = v - 1))) (l := List.range' 1 9)
        have h0 := ih.1
        unfold CellState.optionsLeft at h0
        simp only [List.length_range'] at hle
        simp only [hcv2, Bool.false_eq_true, if_false]
        omega
    · unfold CellState.add_option
      split <;> exact Bits.raise_lt _ _ ih.2 (by omega)

/-- **C15** (the cached option count).  For every cell state obtained from a
constructed `CellState` by `remove_option` and `add_option` calls with digits
1..9: `option_count` is the number of digits 1..9 that are options; a second
`remove_option` or `add_option` of the same digit leaves the state of the first;
and `remove_option` returns true exactly when no digit 1..9 is an option
afterwards. -/
theorem option_count_cached (c : CellState) (hc : CellReach c) (v : Nat) (h1 : 1 ≤ v)
    (h9 : v ≤ 9) :
    c.option_count = (List.range' 1 9).countP c.has_option ∧
    ((c.remove_option v).2.remove_option v).2 = (c.remove_option v).2 ∧
    (c.add_option v).add_option v = c.add_option v ∧
    ((c.remove_option v).1 = true ↔
      ∀ d, 1 ≤ d → d ≤ 9 → (c.remove_option v).2.has_option d = false) := by
  refine ⟨(cellReach_inv hc).1, ?_, ?_, ?_⟩
  · apply CellState.remove_option_of_not_has
    rw [CellState.has_option_remove_option]
    simp
  · apply CellState.add_option_of_has
    rw [CellState.has_option_add_option]
    simp
  · have hlt := (cellReach_inv (CellReach.remove v hc h1 h9)).2
    have e : (c.remove_option v).1 = ((c.remove_option v).2.option_state == 0) := by
      unfold CellState.remove_option; rfl
    rw [e, beq_iff_eq, Bits.eq_zero_iff _ hlt]
    constructor
    · intro hall d hd1 hd9
      exact hall (d - 1) (by omega)
    · intro hall i hi
      have := hall (i + 1) (by omega) (by omega)
      simpa [CellState.has_option] using this

theorem option_count_cached_witness :
    (default : CellState).option_count = (List.range' 1 9).countP (default : CellState).has_option ∧
    (((default : CellState).remove_option 3).2.remove_option 3).2 =
      ((default : CellState).remove_option 3).2 ∧
    ((default : CellState).add_option 3).add_option 3 = (default : CellState).add_option 3 ∧
    (((default : CellState).remove_option 3).1 = true ↔
      ∀ d, 1 ≤ d → d ≤ 9 → ((default : CellState).remove_option 3).2.has_option d = false) :=
  option_count_cached default CellReach.init 3 (by decide) (by decide)

/-- **C14** (`force` is `set` without the ledger).  For every state `s` with the
layout of the class (`WF`), whatever its `iterations`, its undo stack and the
contents of its cells: for every cell `p` of the grid and digit `v` in 1..9,
`force(p, v)` and `set(p, v)` return the same flag and leave the same cell
states (values, candidate sets, option counts) and the same `free_cells`;
`force` leaves the undo stack of `s`; a successful `set` pushes exactly one
entry, for `p` and `v`, whose recorded points are exactly the peers of `p` that
had `v` as a candidate in `s`; a rejected `set` pushes nothing. -/
theorem force_is_set_without_ledger (s : SudokuState) (hwf : WF s) (p : Point)
    (hp : p.inGrid) (v : Nat) (h1 : 1 ≤ v) (h9 : v ≤ 9) :
    (s.force p v).1 = (s.set p v false).1 ∧
    (s.force p v).2.cell_states = (s.set p v false).2.cell_states ∧
    (s.force p v).2.free_cells = (s.set p v false).2.free_cells ∧
    (s.force p v).2.undo_stack = s.undo_stack ∧
    ((s.set p v false).1 = true →
      ∃ op, (s.set p v false).2.undo_stack = op :: s.undo_stack ∧ op.set = p ∧ op.value = v ∧
        ∀ q, q ∈ op.forbids ↔ (isPeer p q ∧ s.candidate q v = true)) ∧
    ((s.set p v false).1 = false → (s.set p v false).2.undo_stack = s.undo_stack) := by
  have hfst : (s.force p v).1 = (s.set p v false).1 := by
    unfold SudokuState.force
    rw [SudokuState.set_fst, SudokuState.set_fst]
  have hfalse : ∀ f, (s.set p v f).1 = false → (s.set p v f).2 = s :=
    fun f h => SudokuState.set_snd_of_false_eq s p h1 h9 f h
  by_cases h : (s.set p v false).1 = true
  · have ht : (s.set p v true).1 = true := by
      have := hfst; unfold SudokuState.force at this; rw [this]; exact h
    have e1 := SudokuState.set_snd_of_true hwf hp v true ht
    have e2 := SudokuState.set_snd_of_true hwf hp v false h
    refine ⟨hfst, ?_, ?_, ?_, fun _ => ?_, fun h2 => ?_⟩
    · unfold SudokuState.force; rw [e1, e2]
    · unfold SudokuState.force; rw [e1, e2]
    · unfold SudokuState.force; rw [e1]; rfl
    · refine ⟨_, by rw [e2]; rfl, rfl, rfl, fun q => ?_⟩
      simp only [List.mem_filter, mem_peerWrites hp]
    · rw [h] at h2; cases h2
  · have hf : (s.set p v false).1 = false := by simpa using h
    have ht : (s.set p v true).1 = false := by
      have := hfst; unfold SudokuState.force at this; rw [this]; exact hf
    refine ⟨hfst, ?_, ?_, ?_, fun h2 => absurd h2 h, fun _ => ?_⟩
    · unfold SudokuState.force; rw [hfalse true ht, hfalse false hf]
    · unfold SudokuState.force; rw [hfalse true ht, hfalse false hf]
    · unfold SudokuState.force; rw [hfalse true ht]
    · rw [hfalse false hf]

theorem force_is_set_without_ledger_witness :
    (counted.force ⟨0, 0⟩ 5).1 = (counted.set ⟨0, 0⟩ 5 false).1 ∧
    (counted.force ⟨0, 0⟩ 5).2.cell_states = (counted.set ⟨0, 0⟩ 5 false).2.cell_states ∧
    (counted.force ⟨0, 0⟩ 5).2.free_cells = (counted.set ⟨0, 0⟩ 5 false).2.free_cells ∧
    (counted.force ⟨0, 0⟩ 5).2.undo_stack = counted.undo_stack ∧
    ((counted.set ⟨0, 0⟩ 5 false).1 = true →
      ∃ op, (counted.set ⟨0, 0⟩ 5 false).2.undo_stack = op :: counted.undo_stack ∧
        op.set = ⟨0, 0⟩ ∧ op.value = 5 ∧
        ∀ q, q ∈ op.forbids ↔ (isPeer ⟨0, 0⟩ q ∧ counted.candidate q 5 = true)) ∧
    ((counted.set ⟨0, 0⟩ 5 false).1 = false →
      (counted.set ⟨0, 0⟩ 5 false).2.undo_stack = counted.undo_stack) :=
  force_is_set_without_ledger counted (inv_iterations fresh_Inv 1).wf ⟨0, 0⟩ (by decide) 5
    (by decide) (by decide)

/-- **C19** (`solve` never changes a clue).  For every state obtained from a fresh
`SudokuState` by `force` calls, every iteration order and recursion budget: when
`solve` returns, true or false, every cell that held a non-zero value before the
call holds the same value afterwards. -/
theorem solve_keeps_clues (order : List Point) (fuel : Nat) (s s2 : SudokuState) (b : Bool)
    (hs : Seeded s) (h : solve order fuel s = .ok (b, s2)) (p : Point)
    (hp : s.valueAt p ≠ 0) : s2.valueAt p = s.valueAt p := by
  have hspec := solve_spec_of_ok order fuel s (seeded_inv hs).1 b s2 h
  cases b with
  | false =>
    rw [(hspec.1 rfl).1]
    rfl
  | true => exact (hspec.2 rfl).2.2 p hp

theorem blockedGrid_clue : blockedGrid.valueAt ⟨0, 0⟩ = 1 := by decide

theorem solve_keeps_clues_witness :
    solve allPoints 1 blockedGrid = .ok (false, { blockedGrid with iterations := 1 }) ∧
    blockedGrid.valueAt ⟨0, 0⟩ ≠ 0 ∧
    ({ blockedGrid with iterations := 1 } : SudokuState).valueAt ⟨0, 0⟩ =
      blockedGrid.valueAt ⟨0, 0⟩ :=
  ⟨blockedGrid_solve, by rw [blockedGrid_clue]; decide,
    solve_keeps_clues allPoints 1 blockedGrid _ false blockedGrid_seeded blockedGrid_solve
      ⟨0, 0⟩ (by rw [blockedGrid_clue]; decide)⟩

theorem trail_inv {s : SudokuState} (h : Trail s) : Inv s := by
  induction h with
  | seeded hs => exact (seeded_inv hs).1
  | push p v _ hp h1 h9 hset ih => exact SudokuState.set_Inv ih hp h1 h9 false hset

theorem trail_empty {s : SudokuState} (h : Trail s) (he : s.undo_stack = []) : Seeded s := by
  cases h with
  | seeded hs => exact hs
  | push p v ht hp h1 h9 hset =>
    rw [SudokuState.set_snd_of_true (trail_inv ht).wf hp v false hset] at he
    simp at he

theorem trail_unset {s s2 : SudokuState} (h : Trail s) (hu : s.unset = some s2) :
    Trail s2 := by
  cases h with
  | seeded hs =>
    have := (seeded_inv hs).2
    simp [SudokuState.unset, this] at hu
  | push p v ht hp h1 h9 hset =>
    rw [SudokuState.unset_set (trail_inv ht).wf hp v hset] at hu
    cases hu
    exact ht

theorem trail_set {s : SudokuState} (h : Trail s) {p : Point} (hp : p.inGrid) {v : Nat}
    (h1 : 1 ≤ v) (h9 : v ≤ 9) : Trail (s.set p v false).2 := by
  by_cases hset : (s.set p v false).1 = true
  · exact Trail.push p v h hp h1 h9 hset
  · rw [SudokuState.set_snd_of_false_eq s p h1 h9 false (by simpa using hset)]
    exact h

theorem searching_trail {s : SudokuState} (h : Searching s) : Trail s := by
  induction h with
  | seeded hs => exact Trail.seeded hs
  | set p v _ hp h1 h9 hset ih => exact Trail.push p v ih hp h1 h9 hset
  | unset _ hu ih => exact trail_unset ih hu

theorem orderly_trail {s : SudokuState} (h : Orderly s) : Trail s := by
  induction h with
  | fresh => exact Trail.seeded Seeded.fresh
  | force p v _ he hp h1 h9 ih => exact Trail.seeded (Seeded.force p v (trail_empty ih he) hp h1 h9)
  | set p v _ hp h1 h9 ih => exact trail_set ih hp h1 h9
  | unset _ hu ih => exact trail_unset ih hu

/-- **C20** (forward checking).  In every state reached from a fresh `SudokuState`
by `force` calls followed by a properly nested sequence of successful `set`
calls and `unset` calls, for every cell `c` of the grid and digit `v` in 1..9:
`v` is a candidate of `c` if and only if no peer of `c` holds the value `v`. -/
theorem forward_checking (s : SudokuState) (hs : Searching s) (c : Point) (hc : c.inGrid)
    (v : Nat) (h1 : 1 ≤ v) (h9 : v ≤ 9) :
    s.candidate c v = true ↔ ∀ q : Point, isPeer c q → s.valueAt q ≠ v :=
  (trail_inv (searching_trail hs)).fc c hc v h1 h9

theorem forward_checking_witness :
    (fresh.set ⟨0, 0⟩ 5 false).1 = true ∧
    ((fresh.set ⟨0, 0⟩ 5 false).2.candidate ⟨0, 1⟩ 5 = true ↔
      ∀ q : Point, isPeer ⟨0, 1⟩ q → (fresh.set ⟨0, 0⟩ 5 false).2.valueAt q ≠ 5) :=
  ⟨by decide, forward_checking _
    (Searching.set ⟨0, 0⟩ 5 (Searching.seeded Seeded.fresh) (by decide) (by decide) (by decide)
      (by decide)) ⟨0, 1⟩ (by decide) 5 (by decide) (by decide)⟩

theorem mixedStart_reachable : Reachable mixedStart :=
  Reachable.set ⟨4, 4⟩ 1 true
    (Reachable.set ⟨0, 0⟩ 1 false Reachable.fresh (by decide) (by decide) (by decide))
    (by decide) (by decide) (by decide)

theorem mixedRun_reachable : Reachable mixedRun := by
  unfold mixedRun
  cases h : mixedStart.unset with
  | none => exact mixedStart_reachable
  | some t =>
    exact Reachable.set ⟨0, 4⟩ 1 true (Reachable.unset mixedStart_reachable h) (by decide)
      (by decide) (by decide)

theorem mixedRun_values :
    mixedRun.valueAt ⟨0, 4⟩ = 1 ∧ mixedRun.valueAt ⟨4, 4⟩ = 1 := by
  decide!

theorem mixedStart_unset : mixedStart.unset.isSome = true := by
  decide!

theorem mixedRun_eq : ∃ t, mixedStart.unset = some t ∧ mixedRun = (t.force ⟨0, 4⟩ 1).2 := by
  cases h : mixedStart.unset with
  | none => have := mixedStart_unset; rw [h] at this; cases this
  | some t =>
    refine ⟨t, rfl, ?_⟩
    unfold mixedRun
    rw [h]

/-- Counterexample to **C12** as stated: after `set((0,0),1)`, `force((4,4),1)`,
`unset()` and `force((0,4),1)`, a state reached by `force`, `set` and `unset`
calls on cells of the grid, the peers (0,4) and (4,4) of one column both hold 1. -/
theorem mixing_clash :
    Reachable mixedRun ∧ (∃ t, mixedStart.unset = some t ∧ mixedRun = (t.force ⟨0, 4⟩ 1).2) ∧
      isPeer ⟨0, 4⟩ ⟨4, 4⟩ ∧ mixedRun.valueAt ⟨0, 4⟩ = 1 ∧ mixedRun.valueAt ⟨4, 4⟩ = 1 :=
  ⟨mixedRun_reachable, mixedRun_eq, by decide, mixedRun_values.1, mixedRun_values.2⟩

/-- **C12**, amended (mixing forced and tentative assignments).  In every state
reached from a fresh `SudokuState` by `force`, `set` and `unset` calls on cells
of the grid with digits 1..9 (`unset` only on a non-empty undo stack) in which
`force` is called only while the undo stack is empty, no two peer cells hold the
same non-zero value. -/
theorem orderly_no_clash (s : SudokuState) (hs : Orderly s) (p q : Point) (hpq : isPeer p q)
    (hp : s.valueAt p ≠ 0) : s.valueAt p ≠ s.valueAt q :=
  (trail_inv (orderly_trail hs)).noclash p q hpq hp

theorem orderly_no_clash_witness :
    isPeer ⟨0, 0⟩ ⟨0, 1⟩ ∧ (fresh.force ⟨0, 0⟩ 5).2.valueAt ⟨0, 0⟩ ≠ 0 ∧
      (fresh.force ⟨0, 0⟩ 5).2.valueAt ⟨0, 0⟩ ≠ (fresh.force ⟨0, 0⟩ 5).2.valueAt ⟨0, 1⟩ :=
  ⟨by decide, by decide, orderly_no_clash _
    (Orderly.force ⟨0, 0⟩ 5 Orderly.fresh rfl (by decide) (by decide) (by decide))
    ⟨0, 0⟩ ⟨0, 1⟩ (by decide) (by decide)⟩

theorem fiveGrid_units :
    ∀ u ∈ units, ∀ d ∈ List.range' 1 9, (u.map fiveGrid).count d = 1 := by
  decide

theorem fiveGrid_valid : ValidGrid fiveGrid := by
  refine ⟨fun p _ => ?_, fun u hu d h1 h9 => ?_⟩
  · unfold fiveGrid; omega
  · exact fiveGrid_units u hu d (List.mem_range'_1.2 ⟨h1, by omega⟩)

theorem twoClues_first : (fresh.force ⟨0, 0⟩ 5).1 = true := by decide

theorem twoClues_second : ((fresh.force ⟨0, 0⟩ 5).2.force ⟨0, 1⟩ 5).1 = false := by decide

theorem twoClues_eq : twoClues = (fresh.force ⟨0, 0⟩ 5).2 := by
  show ((fresh.force ⟨0, 0⟩ 5).2.force ⟨0, 1⟩ 5).2 = (fresh.force ⟨0, 0⟩ 5).2
  exact SudokuState.set_snd_of_false_eq _ _ (by decide) (by decide) true twoClues_second

theorem twoClues_seeded : Seeded twoClues :=
  seed_seeded fresh Seeded.fresh _ (by decide)

theorem twoClues_valueAt (q : Point) :
    twoClues.valueAt q = if q = ⟨0, 0⟩ then 5 else 0 := by
  rw [twoClues_eq]
  unfold SudokuState.force
  rw [SudokuState.valueAt_set fresh_WF (by decide) 5 true twoClues_first, fresh_valueAt]

theorem twoClues_free_cells : twoClues.free_cells = 80 := by
  rw [twoClues_eq]
  decide

theorem fiveGrid_completes : Completes fiveGrid twoClues := by
  refine ⟨fiveGrid_valid, fun p _ hp => ?_⟩
  rw [twoClues_valueAt] at hp ⊢
  by_cases h : p = ⟨0, 0⟩
  · subst h; decide
  · simp [h] at hp

theorem twoClues_solve (order : List Point) (hord : order.Perm allPoints) (fuel : Nat)
    (hfuel : 80 < fuel) :
    ∃ s2 : SudokuState, solve order fuel twoClues = .ok (true, s2) ∧ s2.free_cells = 0 ∧
      s2.valueAt ⟨0, 0⟩ = 5 ∧ ValidGrid s2.valueAt := by
  obtain ⟨b, s2, h, hfalse, htrue⟩ :=
    solve_spec order fuel twoClues (seeded_inv twoClues_seeded).1
      (by rw [twoClues_free_cells]; exact hfuel)
  cases b with
  | false =>
    exact absurd fiveGrid_completes
      ((hfalse rfl).2 (fun q hq => hord.symm.subset ((mem_allPoints q).2 hq)) fiveGrid)
  | true =>
    obtain ⟨hinv, h0, hkeep⟩ := htrue rfl
    refine ⟨s2, h, h0, ?_, hinv.validGrid h0⟩
    rw [hkeep ⟨0, 0⟩ (by rw [twoClues_valueAt]; decide), twoClues_valueAt]
    rfl

/-- Counterexample to **C11** as stated: on the fresh grid `force((0,0),5)`
succeeds and `force((0,1),5)` is rejected, the seeded grid has 80 free cells, and
`solve` on it returns true and leaves `free_cells` at 0. -/
theorem duplicate_clue_solved :
    (fresh.force ⟨0, 0⟩ 5).1 = true ∧ ((fresh.force ⟨0, 0⟩ 5).2.force ⟨0, 1⟩ 5).1 = false ∧
      twoClues.free_cells = 80 ∧
      ∃ s2 : SudokuState, solve allPoints 82 twoClues = .ok (true, s2) ∧ s2.free_cells = 0 := by
  obtain ⟨s2, h, h0, -⟩ := twoClues_solve allPoints (List.Perm.refl _) 82 (by decide)
  exact ⟨twoClues_first, twoClues_second, twoClues_free_cells, s2, h, h0⟩

/-- **C11**, amended (two identical clues in one row).  On the fresh grid
`force((0,0),5)` succeeds and `force((0,1),5)` is rejected and leaves the state
of the first call; `solve` on the grid seeded so, for every iteration order that
lists the 81 cells and a recursion budget above its 80 free cells, returns true
with `free_cells` 0, the clue 5 still in (0,0), and a valid full grid. -/
theorem duplicate_clue_ignored (order : List Point) (hord : order.Perm allPoints) (fuel : Nat)
    (hfuel : 80 < fuel) :
    (fresh.force ⟨0, 0⟩ 5).1 = true ∧ ((fresh.force ⟨0, 0⟩ 5).2.force ⟨0, 1⟩ 5).1 = false ∧
      twoClues = (fresh.force ⟨0, 0⟩ 5).2 ∧
      ∃ s2 : SudokuState, solve order fuel twoClues = .ok (true, s2) ∧ s2.free_cells = 0 ∧
        s2.valueAt ⟨0, 0⟩ = 5 ∧ ValidGrid s2.valueAt :=
  ⟨twoClues_first, twoClues_second, twoClues_eq, twoClues_solve order hord fuel hfuel⟩

theorem duplicate_clue_ignored_witness :
    (fresh.force ⟨0, 0⟩ 5).1 = true ∧ ((fresh.force ⟨0, 0⟩ 5).2.force ⟨0, 1⟩ 5).1 = false ∧
      twoClues = (fresh.force ⟨0, 0⟩ 5).2 ∧
      ∃ s2 : SudokuState, solve allPoints 82 twoClues = .ok (true, s2) ∧ s2.free_cells = 0 ∧
        s2.valueAt ⟨0, 0⟩ = 5 ∧ ValidGrid s2.valueAt :=
  duplicate_clue_ignored allPoints (List.Perm.refl _) 82 (by decide)

theorem valueLoopLog_fst (recurL : SudokuState → Except Fault (Bool × SudokuState) × List Event)
    (recur : SudokuState → Except Fault (Bool × SudokuState))
    (hrec : ∀ s, (recurL s).1 = recur s) (cell : Point × CellState) (vs : List Nat)
    (s : SudokuState) : (valueLoopLog recurL cell vs s).1 = valueLoop recur cell vs s := by
  induction vs generalizing s with
  | nil => rfl
  | cons v rest ih =>
    unfold valueLoopLog valueLoop
    by_cases ho : cell.2.has_option v = true
    · simp only [ho, if_true, hrec]
      cases h1 : recur (s.set cell.1 v false).2 with
      | error e => rfl
      | ok r1 =>
        obtain ⟨b, s2⟩ := r1
        cases b with
        | true => rfl
        | false =>
          simp only
          cases hu : s2.unset with
          | none => rfl
          | some s3 => exact ih s3
    · simp only [ho]
      exact ih s

theorem solveLog_fst (order : List Point) (fuel depth : Nat) (s : SudokuState) :
    (solveLog order fuel depth s).1 = solve order fuel s := by
  induction fuel generalizing depth s with
  | zero => rfl
  | succ n ih =>
    by_cases hs : s.is_solved = true
    · simp only [solveLog, solve, hs, if_true]
    · have hs2 : s.is_solved = false := by simpa using hs
      cases hscan : scan s.cell_states order 10 (default, default) with
      | dead => simp only [solveLog, solve, hs2, hscan, Bool.false_eq_true, if_false]
      | finished mc cell =>
        by_cases hmc : mc > 9
        · simp only [solveLog, solve, hs2, hscan, hmc, Bool.false_eq_true, if_false, if_true]
        · simp only [solveLog, solve, hs2, hscan, hmc, Bool.false_eq_true, if_false]
          exact valueLoopLog_fst _ _ (fun s2 => ih (depth + 1) s2) _ _ _

theorem valueLoopLog_ok (order : List Point) (fuel d : Nat)
    (ih : ∀ s : SudokuState, Inv s →
      ∀ e ∈ (solveLog order fuel (d + 1) s).2, EventOK (s.free_cells + (d + 1)) e)
    (p : Point) (st : CellState) (hst : st.value = 0) (vs : List Nat)
    (hvs : ∀ v ∈ vs, 1 ≤ v ∧ v ≤ 9) (s : SudokuState) (hinv : Inv s)
    (hslot : s.cell_states.slot p = some st) :
    ∀ e ∈ (valueLoopLog (solveLog order fuel (d + 1)) (p, st) vs s).2,
      EventOK (s.free_cells + d) e := by
  have hp : p.inGrid := (hinv.wf.keys p).1 (by rw [hslot]; rfl)
  induction vs generalizing s with
  | nil => intro e he; cases he
  | cons v rest ihv =>
    have hsub : s.cell_states.subscript p = st := by
      simp [UMap.subscript, hslot]
    have hv := hvs v (List.mem_cons_self _ _)
    have hrest : ∀ w ∈ rest, 1 ≤ w ∧ w ≤ 9 := fun w hw => hvs w (List.mem_cons_of_mem _ hw)
    unfold valueLoopLog
    by_cases ho : st.has_option v = true
    · have hset : (s.set p v false).1 = true := by
        rw [SudokuState.set_true_iff]
        simp [SudokuState.valueAt, SudokuState.candidate, hsub, CellState.get_value, hst, ho]
      have hinv1 := SudokuState.set_Inv hinv hp hv.1 hv.2 false hset
      have hfree1 := (SudokuState.set_conserved hinv.wf hinv.conserved hp hv.1 false hset).1
      have hcalled : EventOK (s.free_cells + d)
          (Event.setCall p v (s.set p v false).1 (s.set p v false).2) := ⟨hset, hinv1⟩
      have hinner : ∀ e ∈ (solveLog order fuel (d + 1) (s.set p v false).2).2,
          EventOK (s.free_cells + d) e := by
        intro e he
        have := ih _ hinv1 e he
        rw [show (s.set p v false).2.free_cells + (d + 1) = s.free_cells + d by omega] at this
        exact this
      simp only [ho, if_true]
      cases hres : (solveLog order fuel (d + 1) (s.set p v false).2).1 with
      | error err =>
        intro e he
        rcases List.mem_cons.1 he with rfl | he
        · exact hcalled
        · exact hinner e he
      | ok r1 =>
        obtain ⟨b, s2⟩ := r1
        cases b with
        | true =>
          intro e he
          rcases List.mem_cons.1 he with rfl | he
          · exact hcalled
          · exact hinner e he
        | false =>
          rw [solveLog_fst] at hres
          obtain ⟨g1, -⟩ := (solve_spec_of_ok order fuel _ hinv1 false s2 hres).1 rfl
          have hun : s2.unset = some { s with iterations := s2.iterations } := by
            rw [g1]
            exact SudokuState.unset_iterations (SudokuState.unset_set hinv.wf hp v hset) _
          have htop : s2.undo_stack.head? =
              some { forbids := (peerWrites p).filter fun q => s.candidate q v,
                     set := p, value := v } := by
            rw [g1, SudokuState.set_snd_of_true hinv.wf hp v false hset]
            rfl
          have hundone : EventOK (s.free_cells + d)
              (Event.unsetCall p v s2.undo_stack.head? s2.unset) := by
            rw [htop, hun]
            exact ⟨⟨_, rfl, rfl, rfl⟩, _, rfl, inv_iterations hinv _⟩
          have hlater := ihv hrest { s with iterations := s2.iterations }
            (inv_iterations hinv _) hslot
          simp only [hun]
          intro e he
          rcases List.mem_cons.1 he with rfl | he
          · exact hcalled
          · rcases List.mem_append.1 he with he | he
            · exact hinner e he
            · rcases List.mem_cons.1 he with rfl | he
              · rw [hun] at hundone; exact hundone
              · exact hlater e he
    · simp only [ho]
      exact ihv hrest s hinv hslot

theorem solveLog_ok (order : List Point) (fuel d : Nat) (s : SudokuState) (hinv : Inv s) :
    ∀ e ∈ (solveLog order fuel d s).2, EventOK (s.free_cells + d) e := by
  induction fuel generalizing d s with
  | zero => intro e he; cases he
  | succ n ih =>
    have henter : EventOK (s.free_cells + d) (Event.enter d s) := ⟨hinv, rfl⟩
    have htick : EventOK (s.free_cells + d)
        (Event.tick { s with iterations := (s.iterations + 1) % 2 ^ 32 }) :=
      inv_iterations hinv _
    have hshort : ∀ e ∈ [Event.enter d s,
        Event.tick { s with iterations := (s.iterations + 1) % 2 ^ 32 }],
        EventOK (s.free_cells + d) e := by
      intro e he
      simp only [List.mem_cons, List.mem_singleton, List.not_mem_nil, or_false] at he
      rcases he with rfl | rfl
      · exact henter
      · exact htick
    by_cases hs : s.is_solved = true
    · simp only [solveLog, hs, if_true]
      intro e he
      simp only [List.mem_singleton] at he
      subst he
      exact henter
    · have hs2 : s.is_solved = false := by simpa using hs
      cases hscan : scan s.cell_states order 10 (default, default) with
      | dead =>
        simp only [solveLog, hs2, hscan, Bool.false_eq_true, if_false]
        exact hshort
      | finished mc cell =>
        by_cases hmc : mc > 9
        · simp only [solveLog, hs2, hscan, hmc, Bool.false_eq_true, if_false, if_true]
          exact hshort
        · simp only [solveLog, hs2, hscan, hmc, Bool.false_eq_true, if_false]
          rcases scan_finished _ _ _ _ _ _ hscan with ⟨-, hslot, hval⟩ | ⟨he, -, -⟩
          · have hloop := valueLoopLog_ok order n d (fun s3 h3 => ih (d + 1) s3 h3)
              cell.1 cell.2 hval (List.range' 1 9)
              (fun v hv => by have := List.mem_range'_1.1 hv; omega)
              { s with iterations := (s.iterations + 1) % 2 ^ 32 } (inv_iterations hinv _) hslot
            intro e he
            rcases List.mem_cons.1 he with rfl | he
            · exact henter
            · rcases List.mem_cons.1 he with rfl | he
              · exact htick
              · exact hloop e he
          · omega

theorem conserved_iff {s : SudokuState}
    (h : s.free_cells + allPoints.countP (fun p => decide (s.valueAt p ≠ 0)) = 81) :
    s.free_cells = 0 ↔ ∀ p : Point, p.inGrid → s.valueAt p ≠ 0 := by
  constructor
  · intro h0 p hp
    rw [h0, Nat.zero_add, ← allPoints_length, List.countP_eq_length] at h
    simpa using h p ((mem_allPoints p).2 hp)
  · intro hall
    have : allPoints.countP (fun p => decide (s.valueAt p ≠ 0)) = allPoints.length := by
      rw [List.countP_eq_length]
      intro p hp
      simpa using hall p ((mem_allPoints p).1 hp)
    rw [this, allPoints_length] at h
    omega

theorem eventOK_states {n : Nat} {e : Event} (h : EventOK n e) : ∀ t ∈ e.states, Inv t := by
  intro t ht
  cases e with
  | enter d s =>
    simp only [Event.states, List.mem_singleton] at ht
    subst ht; exact h.1
  | tick s =>
    simp only [Event.states, List.mem_singleton] at ht
    subst ht; exact h
  | setCall p v r s =>
    simp only [Event.states, List.mem_singleton] at ht
    subst ht; exact h.2
  | unsetCall p v top r =>
    obtain ⟨-, t2, rfl, ht2⟩ := h
    simp only [Event.states, List.mem_singleton] at ht
    subst ht; exact ht2

/-- **C13** (conservation).  In every state reached from a fresh `SudokuState` by
`force`, `set` and `unset` calls (`unset` only on a non-empty undo stack), and in
every state that a run of `solve` on a seeded state passes through (on entry of
each call, after `iterations++`, after each `set` and after each `unset`),
`free_cells` plus the number of cells of the grid with a non-zero value is 81;
hence `free_cells` is 0 if and only if all 81 cells are assigned. -/
theorem conservation :
    (∀ s : SudokuState, Reachable s →
      s.free_cells + allPoints.countP (fun p => decide (s.valueAt p ≠ 0)) = 81 ∧
      (s.free_cells = 0 ↔ ∀ p : Point, p.inGrid → s.valueAt p ≠ 0)) ∧
    (∀ (order : List Point) (fuel : Nat) (s : SudokuState), Seeded s →
      (solveLog order fuel 0 s).1 = solve order fuel s ∧
      ∀ e ∈ (solveLog order fuel 0 s).2, ∀ t ∈ e.states,
        t.free_cells + allPoints.countP (fun p => decide (t.valueAt p ≠ 0)) = 81 ∧
        (t.free_cells = 0 ↔ ∀ p : Point, p.inGrid → t.valueAt p ≠ 0)) := by
  refine ⟨fun s hs => ?_, fun order fuel s hs => ⟨solveLog_fst order fuel 0 s, fun e he t ht => ?_⟩⟩
  · have h := (reachable_inv hs).conserved
    exact ⟨h, conserved_iff h⟩
  · have h := (eventOK_states (solveLog_ok order fuel 0 s (seeded_inv hs).1 e he) t ht).conserved
    exact ⟨h, conserved_iff h⟩

/-- **C16** (termination).  For every state `s` obtained from a fresh
`SudokuState` by `force` calls and every iteration order: `s` has at most 81 free
cells; `solve` with a recursion budget above `free_cells` returns a result; and
every call of `solve` in the run, `depth` calls below the outermost one, is
entered with `free_cells` equal to that of `s` minus `depth`, so that each
recursive call has one free cell less than its caller and the depth of the
recursion, counted from 0 for the outermost call, never exceeds the number of
free cells of `s`. -/
theorem solve_terminates (order : List Point) (fuel : Nat) (s : SudokuState) (hs : Seeded s) :
    s.free_cells ≤ 81 ∧
    (s.free_cells < fuel → ∃ b s2, solve order fuel s = .ok (b, s2)) ∧
    (solveLog order fuel 0 s).1 = solve order fuel s ∧
    ∀ (depth : Nat) (t : SudokuState), Event.enter depth t ∈ (solveLog order fuel 0 s).2 →
      t.free_cells + depth = s.free_cells ∧ depth ≤ s.free_cells := by
  have hinv := (seeded_inv hs).1
  refine ⟨?_, fun hfuel => ?_, solveLog_fst order fuel 0 s, fun depth t he => ?_⟩
  · have := hinv.conserved; omega
  · obtain ⟨b, s2, h, -⟩ := solve_spec order fuel s hinv hfuel
    exact ⟨b, s2, h⟩
  · have := (solveLog_ok order fuel 0 s hinv _ he).2
    omega

theorem solve_terminates_witness :
    fresh.free_cells ≤ 81 ∧
    (fresh.free_cells < 82 → ∃ b s2, solve allPoints 82 fresh = .ok (b, s2)) ∧
    (solveLog allPoints 82 0 fresh).1 = solve allPoints 82 fresh ∧
    ∀ (depth : Nat) (t : SudokuState), Event.enter depth t ∈ (solveLog allPoints 82 0 fresh).2 →
      t.free_cells + depth = fresh.free_cells ∧ depth ≤ fresh.free_cells :=
  solve_terminates allPoints 82 fresh Seeded.fresh

set_option maxRecDepth 100000 in
theorem read_tenth_column :
    (read "1234567891").cell_states.contains ⟨0, 9⟩ = true ∧
    (read "1234567891").valueAt ⟨0, 9⟩ = 1 ∧
    (read "1234567891").free_cells = 71 := by
  decide

set_option maxRecDepth 100000 in
theorem read_tenth_row :
    (read "1\n2\n3\n4\n5\n6\n7\n8\n9\n1").cell_states.contains ⟨9, 0⟩ = true ∧
    (read "1\n2\n3\n4\n5\n6\n7\n8\n9\n1").valueAt ⟨9, 0⟩ = 1 := by
  decide

/-- **C18**, evaluated at two inputs.  On the one-line text `1234567891` the reader
takes a tenth cell character and forces the point (0, 9), and on a text of ten
lines it forces the point (9, 0); both points are outside the grid and become
keys of `cell_states`, which then has more than the 81 cells of the grid. -/
theorem read_leaves_grid :
    ¬ (Point.mk 0 9).inGrid ∧
    (read "1234567891").cell_states.contains ⟨0, 9⟩ = true ∧
    (read "1234567891").valueAt ⟨0, 9⟩ = 1 ∧
    (read "1234567891").free_cells = 71 ∧
    ¬ (Point.mk 9 0).inGrid ∧
    (read "1\n2\n3\n4\n5\n6\n7\n8\n9\n1").cell_states.contains ⟨9, 0⟩ = true ∧
    (read "1\n2\n3\n4\n5\n6\n7\n8\n9\n1").valueAt ⟨9, 0⟩ = 1 :=
  ⟨by decide, read_tenth_column.1, read_tenth_column.2.1, read_tenth_column.2.2, by decide,
    read_tenth_row.1, read_tenth_row.2⟩

theorem valueLoopLog_fault
    (recurL : SudokuState → Except Fault (Bool × SudokuState) × List Event)
    (hrec : ∀ s, (recurL s).1 = .error Fault.emptyStack →
      ∃ p v top, Event.unsetCall p v top none ∈ (recurL s).2)
    (cell : Point × CellState) (vs : List Nat) (s : SudokuState)
    (h : (valueLoopLog recurL cell vs s).1 = .error Fault.emptyStack) :
    ∃ p v top, Event.unsetCall p v top none ∈ (valueLoopLog recurL cell vs s).2 := by
  induction vs generalizing s with
  | nil => cases h
  | cons v rest ih =>
    unfold valueLoopLog at h ⊢
    by_cases ho : cell.2.has_option v = true
    · simp only [ho, if_true] at h ⊢
      cases h1 : (recurL (s.set cell.1 v false).2).1 with
      | error e =>
        rw [h1] at h
        simp only [Except.error.injEq] at h
        subst h
        obtain ⟨p, w, top, hm⟩ := hrec _ h1
        exact ⟨p, w, top, List.mem_cons_of_mem _ hm⟩
      | ok r1 =>
        obtain ⟨b, s2⟩ := r1
        rw [h1] at h
        cases b with
        | true => cases h
        | false =>
          simp only at h ⊢
          cases hu : s2.unset with
          | none =>
            exact ⟨cell.1, v, s2.undo_stack.head?,
              List.mem_cons_of_mem _ (List.mem_append_right _ (List.mem_singleton.2 rfl))⟩
          | some s3 =>
            rw [hu] at h
            obtain ⟨p, w, top, hm⟩ := ih s3 h
            exact ⟨p, w, top, List.mem_cons_of_mem _
              (List.mem_append_right _ (List.mem_cons_of_mem _ hm))⟩
    · simp only [ho] at h ⊢
      exact ih s h

theorem solveLog_fault (order : List Point) (fuel depth : Nat) (s : SudokuState)
    (h : (solveLog order fuel depth s).1 = .error Fault.emptyStack) :
    ∃ p v top, Event.unsetCall p v top none ∈ (solveLog order fuel depth s).2 := by
  induction fuel generalizing depth s with
  | zero => cases h
  | succ n ih =>
    by_cases hs : s.is_solved = true
    · simp only [solveLog, hs, if_true] at h
      cases h
    · have hs2 : s.is_solved = false := by simpa using hs
      cases hscan : scan s.cell_states order 10 (default, default) with
      | dead =>
        simp only [solveLog, hs2, hscan, Bool.false_eq_true, if_false] at h
        cases h
      | finished mc cell =>
        by_cases hmc : mc > 9
        · simp only [solveLog, hs2, hscan, hmc, Bool.false_eq_true, if_false, if_true] at h
          cases h
        · simp only [solveLog, hs2, hscan, hmc, Bool.false_eq_true, if_false] at h ⊢
          obtain ⟨p, v, top, hm⟩ :=
            valueLoopLog_fault _ (fun s2 h2 => ih (depth + 1) s2 h2) _ _ _ h
          exact ⟨p, v, top, List.mem_cons_of_mem _ (List.mem_cons_of_mem _ hm)⟩

theorem solve_no_emptyStack (order : List Point) (fuel : Nat) (s : SudokuState) (hinv : Inv s) :
    solve order fuel s ≠ .error Fault.emptyStack := by
  intro h
  rw [← solveLog_fst order fuel 0 s] at h
  obtain ⟨p, v, top, hm⟩ := solveLog_fault order fuel 0 s h
  obtain ⟨-, t, ht, -⟩ := solveLog_ok order fuel 0 s hinv _ hm
  cases ht

/-- **C17** (no rejected `set`, no `unset` on an empty stack).  In every run of
`solve` on a state obtained from a fresh `SudokuState` by `force` calls, for
every iteration order and recursion budget: every `set` call of the value loop
returns true, and every `unset` call finds, at the top of the undo stack, the
entry pushed by the `set` of the same loop pass (same cell, same value), so
that `unset` is never called on an empty undo stack and returns a state; in
particular `solve` never ends in the fault of an `unset` on an empty stack. -/
theorem solve_set_accepted (order : List Point) (fuel : Nat) (s : SudokuState) (hs : Seeded s) :
    solve order fuel s ≠ .error Fault.emptyStack ∧
    (solveLog order fuel 0 s).1 = solve order fuel s ∧
    (∀ (p : Point) (v : Nat) (r : Bool) (t : SudokuState),
      Event.setCall p v r t ∈ (solveLog order fuel 0 s).2 → r = true) ∧
    ∀ (p : Point) (v : Nat) (top : Option SetOperation) (r : Option SudokuState),
      Event.unsetCall p v top r ∈ (solveLog order fuel 0 s).2 →
        (∃ op, top = some op ∧ op.set = p ∧ op.value = v) ∧ r.isSome = true := by
  have hinv := (seeded_inv hs).1
  refine ⟨solve_no_emptyStack order fuel s hinv, solveLog_fst order fuel 0 s,
    fun p v r t he => ?_, fun p v top r he => ?_⟩
  · exact (solveLog_ok order fuel 0 s hinv _ he).1
  · obtain ⟨h1, t, rfl, -⟩ := solveLog_ok order fuel 0 s hinv _ he
    exact ⟨h1, rfl⟩

theorem solve_set_accepted_witness :
    solve allPoints 82 fresh ≠ .error Fault.emptyStack ∧
    (solveLog allPoints 82 0 fresh).1 = solve allPoints 82 fresh ∧
    (∀ (p : Point) (v : Nat) (r : Bool) (t : SudokuState),
      Event.setCall p v r t ∈ (solveLog allPoints 82 0 fresh).2 → r = true) ∧
    ∀ (p : Point) (v : Nat) (top : Option SetOperation) (r : Option SudokuState),
      Event.unsetCall p v top r ∈ (solveLog allPoints 82 0 fresh).2 →
        (∃ op, top = some op ∧ op.set = p ∧ op.value = v) ∧ r.isSome = true :=
  solve_set_accepted allPoints 82 fresh Seeded.fresh

end Sudoku
